import Mathlib

/-!
# Verification of the rust-simple-fs glob traversal engine

Shallow embedding of the glob-driven filesystem traversal and prioritization
engine of `rust-simple-fs` (pattern grouping, literal-prefix extraction,
directory-pruning walk, file/dir iterators, priority sorter), together with
proofs of the specification's testable properties.

Conventions:
- Rust `&str` / `String` become Lean `String`; path strings are POSIX style.
- Machine integers (`usize`) become `Nat`; `usize::MAX` is the explicit
  constant `USIZE_MAX`.
- External collaborators (the `globset` glob compiler and the `walkdir`
  directory walker) are parameters of the embedded functions, matching the
  spec's §6 collaborator contracts.  Fallible Rust functions returning
  `Result` become `Except`.
-/

namespace SimpleFs

/-! ## Basic string helpers -/

/-- Helper for substring search: does `pat` occur in `s` at some position? -/
def infixCheck (s pat : List Char) : Bool :=
  pat.isPrefixOf s ||
    (match s with
     | [] => false
     | _ :: t => infixCheck t pat)

/-- `s.contains(pat)` for Rust strings: substring containment test. -/
def containsStr (s pat : String) : Bool :=
  infixCheck s.data pat.data

/-- Number of characters of `s` satisfying `p`
(Rust `s.matches(p).count()` for a char predicate). -/
def charCount (s : String) (p : Char → Bool) : Nat :=
  (s.data.filter p).length

/-- Rust `str::trim_start_matches("./")`: repeatedly strip a leading `"./"`. -/
def trimDotSlash : List Char → List Char
  | '.' :: '/' :: rest => trimDotSlash rest
  | l => l

/-- String-level wrapper for `trim_start_matches("./")`. -/
def trimStartDotSlash (s : String) : String :=
  ⟨trimDotSlash s.data⟩

/-! ## `src/glob.rs` -/

/-- `TOP_MAX_DEPTH` from `src/lib.rs` line 49. -/
def TOP_MAX_DEPTH : Nat := 100

/-- `DEFAULT_EXCLUDE_GLOBS` from `src/glob.rs` line 5. -/
def DEFAULT_EXCLUDE_GLOBS : List String :=
  ["**/.git", "**/.DS_Store", "**/target", "**/node_modules"]

/-- Per-pattern folder level used by `get_depth`:
`g.matches(|c| c == '\\' || c == '/').count() + 1`. -/
def patternLevel (g : String) : Nat :=
  charCount g (fun c => c = '\\' || c = '/') + 1

/-- `get_depth` from `src/glob.rs` lines 54-71.

1. If a depth is provided via the argument, it is returned directly.
2. Otherwise, if any pattern contains `"**"`, returns `TOP_MAX_DEPTH`.
3. Else, the maximum folder level across the patterns, at least 1. -/
def get_depth (patterns : List String) (depth : Option Nat) : Nat :=
  match depth with
  | some userDepth => userDepth
  | none =>
    if patterns.any (fun g => containsStr g "**") then TOP_MAX_DEPTH
    else
      max (patterns.foldl (fun m g => max m (patternLevel g)) 0) 1

/-! ## Generic comparator-based stable sorting

Rust's `Vec::sort` / `sort_by` (stable). Embedded as a stable insertion
sort driven by an `Ordering`-returning comparator, as in the source. -/

/-- Insert `x` into `l`, placing it before the first element that does not
compare `Ordering.gt` against it (stable placement). -/
def insertByCmp {α : Type} (cmp : α → α → Ordering) (x : α) : List α → List α
  | [] => [x]
  | y :: ys => if cmp x y = Ordering.gt then y :: insertByCmp cmp x ys else x :: y :: ys

/-- Stable insertion sort by an `Ordering` comparator. -/
def sortByCmp {α : Type} (cmp : α → α → Ordering) : List α → List α
  | [] => []
  | x :: xs => insertByCmp cmp x (sortByCmp cmp xs)

/-- Character comparison (Rust compares `char`/bytes; for the ASCII strings
handled here both coincide with comparison of the scalar values). -/
def cmpChar (a b : Char) : Ordering := compare a.toNat b.toNat

/-- Lexicographic comparison of char lists. -/
def cmpCharList : List Char → List Char → Ordering
  | [], [] => Ordering.eq
  | [], _ :: _ => Ordering.lt
  | _ :: _, [] => Ordering.gt
  | a :: as, b :: bs =>
    match cmpChar a b with
    | Ordering.eq => cmpCharList as bs
    | o => o

/-- Rust `str::cmp`: lexicographic string comparison. -/
def cmpStr (a b : String) : Ordering := cmpCharList a.data b.data

/-- Rust `Vec::dedup`: remove consecutive duplicates. -/
def dedupAdj : List String → List String
  | [] => []
  | [a] => [a]
  | a :: b :: t => if a == b then dedupAdj (b :: t) else a :: dedupAdj (b :: t)

/-! ## SPath normalization (`src/support/normalizer.rs`, POSIX model)

`SPath::new` normalizes its input with `into_normalized`: backslashes become
forward slashes, consecutive slashes collapse, `./` segments are dropped
except at the start, and a Windows `\\?\` prefix is removed.  The source's
`needs_normalize` fast path returns the input unchanged exactly when the
full pass would; only the full pass is embedded. -/

/-- Strip a leading Windows `\\?\` prefix. -/
def dropUNC : List Char → List Char
  | '\\' :: '\\' :: '?' :: '\\' :: rest => rest
  | l => l

/-- The character loop of `into_normalized` (lines 44-87): `acc` is the
reversed result so far, the `Bool` is `last_was_slash`.  A `.` seen right
after a slash swallows a following slash (dropping the `./` segment) unless
the result is still empty (keeping a leading `./`, a branch that is in fact
unreachable because `last_was_slash` implies a slash was emitted). -/
def normGo (acc : List Char) (lastSlash : Bool) : List Char → List Char
  | [] => acc.reverse
  | ['.'] =>
    ('.' :: acc).reverse
  | '.' :: d :: rest2 =>
    if lastSlash then
      if d = '/' || d = '\\' then
        if acc.isEmpty then normGo acc lastSlash (d :: rest2)
        else normGo acc lastSlash rest2
      else normGo ('.' :: acc) false (d :: rest2)
    else normGo ('.' :: acc) false (d :: rest2)
  | c :: rest =>
    if c = '\\' || c = '/' then
      if lastSlash then normGo acc true rest
      else normGo ('/' :: acc) true rest
    else normGo (c :: acc) false rest

/-- `into_normalized` from `src/support/normalizer.rs` lines 22-95. -/
def into_normalized (s : String) : String :=
  let r := normGo [] false (dropUNC s.data)
  let r :=
    if (s.data.getLast? == some '/' || s.data.getLast? == some '\\') &&
        !(r.getLast? == some '/')
    then r ++ ['/'] else r
  ⟨r⟩

/-- `SPath::new` (`src/spath.rs` lines 23-27): construction normalizes. -/
def spath_new (s : String) : String := into_normalized s

/-- `Utf8PathBuf::push` (camino, POSIX model): an absolute leaf replaces the
path, otherwise the leaf is appended with a separator when needed. -/
def rawJoin (p leaf : String) : String :=
  if leaf.data.head? == some '/' then leaf
  else if p == "" || p.data.getLast? == some '/' then p ++ leaf
  else p ++ "/" ++ leaf

/-- `SPath::join` (`src/spath.rs` lines 309-312): camino push, then the
`From<Utf8PathBuf>` constructor normalizes the result. -/
def spath_join (p leaf : String) : String :=
  spath_new (rawJoin p leaf)

/-! ## Literal-prefix extractor (`src/list/globs_file_iter.rs` lines 452-591) -/

/-- Split a char list on `'/'` (Rust `str::split('/')`; `""` splits to `[""]`). -/
def splitSlashGo (cur : List Char) : List Char → List String
  | [] => [⟨cur.reverse⟩]
  | c :: rest =>
    if c = '/' then ⟨cur.reverse⟩ :: splitSlashGo [] rest
    else splitSlashGo (c :: cur) rest

/-- Split a char list on `','` (Rust `str::split(',')`). -/
def splitCommaGo (cur : List Char) : List Char → List (List Char)
  | [] => [cur.reverse]
  | c :: rest =>
    if c = ',' then cur.reverse :: splitCommaGo [] rest
    else splitCommaGo (c :: cur) rest

/-- ASCII whitespace test for Rust `str::trim` (the source's brace options are
ASCII; Unicode whitespace beyond these does not occur in glob patterns). -/
def isWS (c : Char) : Bool :=
  c = ' ' || c = '\t' || c = '\n' || c = '\r'

/-- Rust `str::trim`. -/
def trimChars (l : List Char) : List Char :=
  ((l.dropWhile isWS).reverse.dropWhile isWS).reverse

/-- `segment_contains_wildcard` from `src/list/globs_file_iter.rs` lines 555-557:
the segment contains `*`, `?` or `[`. -/
def segment_contains_wildcard (segment : String) : Bool :=
  segment.data.contains '*' || segment.data.contains '?' || segment.data.contains '['

/-- The inner characters of a brace segment: everything between the braces. -/
def braceInner (segment : String) : List Char :=
  (segment.data.drop 1).dropLast

/-- The comma-separated, trimmed, non-empty options of a brace segment
(Rust: `inner.split(',').map(|s| s.trim()).filter(|s| !s.is_empty())`). -/
def braceOptions (segment : String) : List (List Char) :=
  ((splitCommaGo [] (braceInner segment)).map trimChars).filter (fun s => !(s == []))

/-- `expand_brace_segment` from `src/list/globs_file_iter.rs` lines 529-545:
expand a single `{a,b}` brace segment into concrete options; `none` when the
segment is not a clean un-nested brace alternation. -/
def expand_brace_segment (segment : String) : Option (List String) :=
  if segment.data.head? == some '{' && segment.data.getLast? == some '}' then
    if (braceInner segment).contains '{' || (braceInner segment).contains '}' then none
    else
      if braceOptions segment == [] then none
      else some ((braceOptions segment).map (fun s => (⟨s⟩ : String)))
  else none

/-- The prefix accumulator's combination step (lines 483-504): the segment
itself when the accumulated prefix is empty, else
`SPath::new(prefix).join(segment).to_string()`. -/
def joinSeg (p seg : String) : String :=
  if p == "" then seg else spath_join p seg

/-- The accumulation loop of `glob_literal_prefixes` (lines 476-511): walk the
non-final segments left to right, stopping at `..`, wildcard segments and
unparsable braces, expanding brace alternations as a cartesian product. -/
def prefixLoop : List String → List String → List String
  | [], acc => acc
  | seg :: rest, acc =>
    if seg == ".." || segment_contains_wildcard seg then acc
    else
      match expand_brace_segment seg with
      | some options =>
        if (acc.map (fun p => options.map (fun o => joinSeg p o))).flatten == [] then acc
        else prefixLoop rest ((acc.map (fun p => options.map (fun o => joinSeg p o))).flatten)
      | none =>
        if seg.data.contains '{' || seg.data.contains '}' then acc
        else if acc.map (fun p => joinSeg p seg) == [] then acc
        else prefixLoop rest (acc.map (fun p => joinSeg p seg))

/-- The segment list of `glob_literal_prefixes` (line 466): split the cleaned
pattern on `/` and drop empty and `"."` segments. -/
def patternSegments (pattern : String) : List String :=
  (splitSlashGo [] (trimStartDotSlash pattern).data).filter
    (fun s => !(s == "") && !(s == "."))

/-- `glob_literal_prefixes` from `src/list/globs_file_iter.rs` lines 460-519:
extract literal directory prefixes from a glob pattern. -/
def glob_literal_prefixes (pattern : String) : List String :=
  if trimStartDotSlash pattern == "" then []
  else if (patternSegments pattern).length ≤ 1 then []
  else if prefixLoop (patternSegments pattern).dropLast [""] == [""] then []
  else prefixLoop (patternSegments pattern).dropLast [""]

/-- `append_adjusted` from lines 567-571: append cloned prefix values. -/
def append_adjusted (target values : List String) : List String :=
  target ++ values

/-- `normalize_prefixes` from lines 581-591: clear the set if any member is
empty, otherwise sort and remove duplicates. -/
def normalize_prefixes (prefixes : List String) : List String :=
  if prefixes == [] then prefixes
  else if prefixes.any (fun p => p == "") then []
  else dedupAdj (sortByCmp cmpStr prefixes)

/-! ## `ListOptions` (`src/list_options.rs`, with the `depth` field used by
the iterators in `src/list/globs_file_iter.rs` and `src/globs_dir_iter.rs`) -/

structure ListOptions where
  exclude_globs : Option (List String)
  relative_glob : Bool
  depth : Option Nat
deriving DecidableEq

/-! ## Negated-pattern preprocessing

`GlobsFileIter::new` lines 21-77 and `GlobsDirIter::new` lines 27-83:
split the caller's include patterns into non-negated patterns and negated
(`!`-prefixed) patterns, then fold the negated ones into the options'
exclude set. -/

/-- Rust `pattern.strip_prefix("!")` succeeds: the pattern is negated. -/
def isNegated (p : String) : Bool :=
  p.data.head? == some '!'

/-- The remainder after stripping the leading `!`. -/
def stripNegation (p : String) : String :=
  ⟨p.data.drop 1⟩

/-- The splitting loop (file iter lines 22-32): pushes each pattern to the
include or (with its `!` stripped) the exclude list, preserving order. -/
def splitNegated : List String → List String × List String
  | [] => ([], [])
  | p :: rest =>
    if isNegated p then
      ((splitNegated rest).1, stripNegation p :: (splitNegated rest).2)
    else
      (p :: (splitNegated rest).1, (splitNegated rest).2)

/-- File-iterator include preprocessing (lines 22-42): with no include list
the single pattern `"**"` is used; if all patterns were negated, `"**"` is
substituted as the include. -/
def processIncludeGlobsFile (include_globs : Option (List String)) :
    List String × List String :=
  match include_globs with
  | some globs =>
    if (splitNegated globs).1 == [] && !((splitNegated globs).2 == []) then
      (["**"], (splitNegated globs).2)
    else ((splitNegated globs).1, (splitNegated globs).2)
  | none => (["**"], [])

/-- Directory-iterator include preprocessing (`src/globs_dir_iter.rs`
lines 28-48): identical to the file iterator except that a missing include
list yields no include patterns at all. -/
def processIncludeGlobsDir (include_globs : Option (List String)) :
    List String × List String :=
  match include_globs with
  | some globs =>
    if (splitNegated globs).1 == [] && !((splitNegated globs).2 == []) then
      (["**"], (splitNegated globs).2)
    else ((splitNegated globs).1, (splitNegated globs).2)
  | none => ([], [])

/-- Folding the negated excludes into the `ListOptions` (file iter
lines 44-77, dir iter lines 50-83): appended after any caller-supplied
excludes; fresh options (`relative_glob = false`, `depth = none`) when the
caller supplied none. -/
def applyNegatedExcludes (list_options : Option ListOptions)
    (negated_excludes : List String) : Option ListOptions :=
  if !(negated_excludes == []) then
    match list_options with
    | some opts =>
      some { exclude_globs :=
               match opts.exclude_globs with
               | some existing => some (existing ++ negated_excludes)
               | none => some negated_excludes,
             relative_glob := opts.relative_glob,
             depth := opts.depth }
    | none =>
      some { exclude_globs := some negated_excludes,
             relative_glob := false,
             depth := none }
  else list_options

/-! ## Exclude-set selection

File iterator (lines 85-90): the caller's exclude set, defaulted to
`DEFAULT_EXCLUDE_GLOBS` when absent.  Directory iterator (lines 102-121):
the caller's exclude set only — no defaulting. -/

/-- The exclude-pattern list the file iterator compiles (`exclude_globs_raw
.or(Some(DEFAULT_EXCLUDE_GLOBS))`), after negated-include folding. -/
def globsFileIterExcludeChoice (include_globs : Option (List String))
    (list_options : Option ListOptions) : Option (List String) :=
  ((applyNegatedExcludes list_options (processIncludeGlobsFile include_globs).2).bind
      (fun o => o.exclude_globs)).or (some DEFAULT_EXCLUDE_GLOBS)

/-- The exclude-pattern list the directory iterator compiles: present only
when the (possibly extended) options carry one. -/
def globsDirIterExcludeChoice (include_globs : Option (List String))
    (list_options : Option ListOptions) : Option (List String) :=
  (applyNegatedExcludes list_options (processIncludeGlobsDir include_globs).2).bind
    (fun o => o.exclude_globs)

/-! ## Path components and `diff` (camino / pathdiff collaborators)

Modelled from the spec's path-primitive contract (§6): POSIX components of
normalized SPath strings, the whole-component `starts_with` test, and
`diff(base)` (the pathdiff algorithm: strip the common prefix, then one
`..` per remaining base component). -/

/-- POSIX path components of a normalized path string: a leading `/`
becomes the root component `"/"`; empty and (non-semantic) `.` components
are dropped, except that `.` components of a relative path are kept only in
the leading position (std/camino `Components` semantics). -/
def strComponents (s : String) : List String :=
  if s.data.head? == some '/' then
    "/" :: ((splitSlashGo [] s.data).filter (fun c => !(c == "") && !(c == ".")))
  else
    match (splitSlashGo [] s.data).filter (fun c => !(c == "")) with
    | "." :: rest => "." :: rest.filter (fun c => !(c == "."))
    | l => l.filter (fun c => !(c == "."))

/-- Join components back into a path string (`PathBuf` push semantics). -/
def joinWithSlash : List String → String
  | [] => ""
  | [c] => c
  | c :: rest => c ++ "/" ++ joinWithSlash rest

/-- Join a component list, root-aware. -/
def joinComponents : List String → String
  | "/" :: rest => "/" ++ joinWithSlash rest
  | cs => joinWithSlash cs

/-- `SPath::is_absolute` (camino, POSIX): the normalized path starts with
`/`. -/
def spath_is_absolute (s : String) : Bool :=
  (spath_new s).data.head? == some '/'

/-- `SPath::starts_with` (camino): whole-component prefix test. -/
def spath_starts_with (s base : String) : Bool :=
  (strComponents base).isPrefixOf (strComponents s)

/-- The pathdiff component loop (`diff_utf8_paths`): `emptySoFar` tracks
whether the output is still empty (the common-prefix phase). -/
def diffLoop (emptySoFar : Bool) : List String → List String → Option (List String)
  | [], [] => some []
  | a :: ra, [] => some (a :: ra)
  | [], _ :: rb => (diffLoop false [] rb).map (fun t => ".." :: t)
  | a :: ra, b :: rb =>
    if emptySoFar && a == b then diffLoop true ra rb
    else if b == "." then (diffLoop false ra rb).map (fun t => a :: t)
    else if b == ".." then none
    else some (".." :: (rb.map (fun _ => "..") ++ a :: ra))

/-- `SPath::diff` (`src/spath.rs` lines 345-351, via `pathdiff`): relative
path from `base` to `path`; `none` when no relation can be computed. -/
def spath_diff (path base : String) : Option String :=
  if (path.data.head? == some '/') == (base.data.head? == some '/') then
    (diffLoop true (strComponents path) (strComponents base)).map joinComponents
  else if path.data.head? == some '/' then some path
  else none

/-! ## Pattern grouper (`src/list/globs_file_iter.rs` lines 219-405) -/

/-- A Glob Group (lines 219-223): a walk base, patterns relative to that
base, and the literal-prefix set for pruning. -/
structure GlobGroup where
  base : String
  patterns : List String
  prefixes : List String
deriving DecidableEq

/-- The component walk of `longest_base_path_wild_free`: stop at the first
component containing `*` or `?`. -/
def takeWildFree : List String → List String
  | [] => []
  | c :: rest =>
    if c.data.contains '*' || c.data.contains '?' then []
    else c :: takeWildFree rest

/-- `longest_base_path_wild_free` (`src/glob.rs` lines 30-43): the longest
leading component run free of `*` and `?`. -/
def longest_base_path_wild_free (pattern : String) : String :=
  joinComponents (takeWildFree (strComponents pattern))

/-- `relative_from_absolute` (lines 403-405): rewrite an absolute glob
relative to its computed base, falling back to the glob itself. -/
def relative_from_absolute (glob group_base : String) : String :=
  match spath_diff glob group_base with
  | some p => p
  | none => glob

/-- Accumulate an absolute pattern into the base→patterns list (lines
247-252): append to an existing same-base entry, else push a new entry. -/
def pushPattern (groups : List (String × List String)) (base pat : String) :
    List (String × List String) :=
  match groups with
  | [] => [(base, [pat])]
  | (b, pats) :: rest =>
    if b == base then (b, pats ++ [pat]) :: rest
    else (b, pats) :: pushPattern rest base pat

/-- The cleaned caller base used for collapsing relative patterns (lines
257-269): leading `./` stripped, with a trailing `/` ensured when
non-empty. -/
def base_str_cleaned (main_base : String) : String :=
  if trimStartDotSlash main_base == "" then ""
  else if (trimStartDotSlash main_base).data.getLast? == some '/' then
    trimStartDotSlash main_base
  else trimStartDotSlash main_base ++ "/"

/-- Collapse one relative pattern against the caller's base (lines
254-275): strip a leading `./`, then strip the cleaned base when it is a
string prefix (the source's ad hoc string-prefix heuristic; character-level
model of the byte slice). -/
def cleanRelative (main_base glob : String) : String :=
  if !(base_str_cleaned main_base == "") &&
      (base_str_cleaned main_base).data.isPrefixOf (trimStartDotSlash glob).data then
    ⟨(trimStartDotSlash glob).data.drop (base_str_cleaned main_base).data.length⟩
  else trimStartDotSlash glob

/-- The accumulation loop of `process_globs` (lines 238-280). -/
def accumGlobs (main_base : String) (groups : List (String × List String))
    (rel : List String) : List String → List (String × List String) × List String
  | [] => (groups, rel)
  | glob :: rest =>
    if spath_is_absolute glob then
      accumGlobs main_base
        (pushPattern groups (longest_base_path_wild_free (spath_new glob))
          (relative_from_absolute (spath_new glob)
            (longest_base_path_wild_free (spath_new glob))))
        rel rest
    else
      accumGlobs main_base groups (rel ++ [cleanRelative main_base glob]) rest

/-- The per-group prefix recomputation (lines 301-318, 337-357, 363-380):
union the per-pattern literal prefixes, or flag full traversal when any
pattern yields none. -/
def prefixAccum : List String → List String → Option (List String)
  | [], acc => some acc
  | pat :: rest, acc =>
    if glob_literal_prefixes pat == [] then none
    else prefixAccum rest (append_adjusted acc (glob_literal_prefixes pat))

/-- Prefix set for a pattern list: empty on full traversal, normalized
otherwise. -/
def computePrefixes (patterns : List String) : List String :=
  match prefixAccum patterns [] with
  | none => []
  | some acc => normalize_prefixes acc

/-- Pattern rewriting during a merge: prepend the base offset
(`SPath::new(&diff).join(pat).to_string()`), or keep the pattern when the
offset is empty. -/
def rewritePat (diff pat : String) : String :=
  if diff == "" then pat else spath_join (spath_new diff) pat

/-- `(spath.diff(other)).map(to_string).unwrap_or_default()`. -/
def diffOrEmpty (path base : String) : String :=
  match spath_diff path base with
  | some p => p
  | none => ""

/-- The merge pass of `process_globs` (lines 286-388): merge the new
`(base, patterns)` pair into the first related finalized group — appending
offset-rewritten patterns when the existing base starts with the new base,
re-rooting at the new (longer) base when the new base starts with the
existing one — else keep scanning; unrelated pairs become new groups at the
end.  Prefixes are recomputed for merged groups. -/
def mergeInto : List GlobGroup → String → List String → List GlobGroup
  | [], base, patterns =>
    [{ base := base, patterns := patterns, prefixes := computePrefixes patterns }]
  | g :: rest, base, patterns =>
    if spath_starts_with g.base base then
      { base := g.base,
        patterns := g.patterns ++
          patterns.map (fun pat => rewritePat (diffOrEmpty base g.base) pat),
        prefixes := computePrefixes (g.patterns ++
          patterns.map (fun pat => rewritePat (diffOrEmpty base g.base) pat)) } :: rest
    else if spath_starts_with base g.base then
      { base := base,
        patterns := patterns ++
          g.patterns.map (fun pat => rewritePat (diffOrEmpty g.base base) pat),
        prefixes := computePrefixes (patterns ++
          g.patterns.map (fun pat => rewritePat (diffOrEmpty g.base base) pat)) } :: rest
    else g :: mergeInto rest base patterns

/-- `process_globs` from `src/list/globs_file_iter.rs` lines 237-391. -/
def process_globs (main_base : String) (globs : List String) : List GlobGroup :=
  (sortByCmp (fun (a b : String × List String) => compare a.1.data.length b.1.data.length)
      ((fun gr => if gr.2 == [] then gr.1 else gr.1 ++ [(main_base, gr.2)])
        (accumGlobs main_base [] [] globs))).foldl
    (fun final bp => mergeInto final bp.1 bp.2) []

/-! ## Priority sorter (`src/list/sort.rs`) -/

/-- `usize::MAX`: the sentinel rank for items matching no pattern. -/
def USIZE_MAX : Nat := 18446744073709551615

/-- The forward scan of `match_index_for_path` (lines 64-72): first
matching glob index, else the sentinel. -/
def firstFoundIdx (path : String) : List (Nat × (String → Bool)) → Nat
  | [] => USIZE_MAX
  | (i, m) :: t => if m path then i else firstFoundIdx path t

/-- The accumulating scan of `match_index_for_path` (lines 55-63): last
matching glob index, carried in `found`. -/
def lastFoundIdx (path : String) (found : Option Nat) :
    List (Nat × (String → Bool)) → Option Nat
  | [] => found
  | (i, m) :: t => lastFoundIdx path (if m path then some i else found) t

/-- `match_index_for_path` from `src/list/sort.rs` lines 49-73. -/
def match_index_for_path (path : String)
    (matchers : List (Nat × (String → Bool))) (end_weighted : Bool) : Nat :=
  if matchers.isEmpty then USIZE_MAX
  else if end_weighted then (lastFoundIdx path none matchers).getD USIZE_MAX
  else firstFoundIdx path matchers

/-- The sort comparator of `sort_by_globs` (lines 25-42): by glob index,
tie-broken by the full path string. -/
def sortCmp (matchers : List (Nat × (String → Bool))) (end_weighted : Bool)
    (a b : String) : Ordering :=
  match compare (match_index_for_path a matchers end_weighted)
      (match_index_for_path b matchers end_weighted) with
  | Ordering.eq => cmpStr a b
  | o => o

/-- The matcher-building loop of `sort_by_globs` (lines 19-23): compile each
glob in order, failing with the offending pattern (the external compiler is
the `compile` parameter). -/
def buildMatchers (compile : String → Option (String → Bool)) :
    List String → Except String (List (String → Bool))
  | [] => Except.ok []
  | g :: t =>
    match compile g with
    | none => Except.error g
    | some m =>
      match buildMatchers compile t with
      | Except.ok ms => Except.ok (m :: ms)
      | Except.error e => Except.error e

/-- `sort_by_globs` from `src/list/sort.rs` lines 14-45: build the indexed
matchers, then stably sort the items (their path strings) by
`(glob index, full path)`. -/
def sort_by_globs (compile : String → Option (String → Bool))
    (items : List String) (globs : List String) (end_weighted : Bool) :
    Except String (List String) :=
  match buildMatchers compile globs with
  | Except.error g => Except.error g
  | Except.ok ms =>
    Except.ok (sortByCmp (sortCmp (List.enumFrom 0 ms) end_weighted) items)

/-! ## `get_glob_set` and the file-iterator pipeline

`get_glob_set` (`src/glob.rs` lines 7-28) compiles a pattern list into one
set matcher, failing with the offending pattern string
(`Error::GlobCantNew { glob, .. }`).  The glob compiler itself and the
directory walker are the external collaborators (§6): the compiler is the
`compile` parameter, the walker the `walkFn` parameter (root, max depth and
the `filter_entry` predicate in, the surviving `(path, is_dir)` entries
out). -/

/-- `get_glob_set`: compile the patterns in order; the set matches a path
when any member pattern does. -/
def get_glob_set (compile : String → Option (String → Bool)) :
    List String → Except String (String → Bool)
  | [] => Except.ok (fun _ => false)
  | g :: t =>
    match compile g with
    | none => Except.error g
    | some m =>
      match get_glob_set compile t with
      | Except.ok ms => Except.ok (fun s => m s || ms s)
      | Except.error e => Except.error e

/-- The per-prefix test of `directory_matches_allowed_prefixes` (lines
440-449): empty prefixes pass, else whole-component prefix either way. -/
def prefixesAnyMatch (rel : String) (prefixes : List String) : Bool :=
  prefixes.any (fun q =>
    q == "" ||
    spath_starts_with rel (spath_new q) ||
    spath_starts_with (spath_new q) rel)

/-- `directory_matches_allowed_prefixes` from `src/list/globs_file_iter.rs`
lines 415-450: a directory is allowed at the base itself, when its relative
path cannot be computed, and when some allowed prefix is component-prefix
related (either way) to its relative path (after stripping one leading
`./`). -/
def directory_matches_allowed_prefixes (path base : String)
    (prefixes : List String) : Bool :=
  if prefixes == [] then true
  else if path == base then true
  else
    match spath_diff path base with
    | none => true
    | some rel =>
      if rel.data.take 2 == ['.', '/'] then
        (if rel.data.drop 2 == [] then true
         else prefixesAnyMatch (spath_new ⟨rel.data.drop 2⟩) prefixes)
      else if rel == "" then true
      else prefixesAnyMatch rel prefixes

/-- The `filter_entry` closure of the per-group walk (lines 120-152):
directories are rejected when the exclude set matches them (relative to the
group base in relative-glob mode, else the full path) or when they fail the
literal-prefix test; files always pass. -/
def groupFilterEntry (excl : Option (String → Bool)) (useRel : Bool)
    (group_base : String) (prefixes : List String)
    (path : String) (is_dir : Bool) : Bool :=
  if is_dir then
    if (match excl with
        | some ex =>
          if useRel then
            (match spath_diff path group_base with
             | some rel => ex rel
             | none => false)
          else ex path
        | none => false) then false
    else if !(prefixes == []) &&
        !(directory_matches_allowed_prefixes path group_base prefixes) then false
    else true
  else true

/-- The per-file filter of the per-group iterator (lines 161-184): drop
files matching the exclude set (relative to the caller's base in
relative-glob mode, else the full path), then require the group's globset
to match the path relative to the group base. -/
def groupFileFilter (excl : Option (String → Bool)) (useRel : Bool)
    (main_base group_base : String) (globset : String → Bool)
    (path : String) : Bool :=
  (match excl with
   | some ex =>
     if useRel then
       (match spath_diff path main_base with
        | some rel => !(ex rel)
        | none => true)
     else !(ex path)
   | none => true) &&
  (match spath_diff path group_base with
   | some rel => globset rel
   | none => false)

/-- The cross-group deduplication scan (lines 194-204): `seen` is the
hash-set of already-yielded absolute paths; later occurrences are dropped. -/
def dedupGo {α : Type} [BEq α] (seen : List α) : List α → List α
  | [] => []
  | x :: xs =>
    if seen.contains x then dedupGo seen xs
    else x :: dedupGo (x :: seen) xs

/-- First-occurrence deduplication of the chained iterator output. -/
def dedupScan {α : Type} [BEq α] (l : List α) : List α :=
  dedupGo [] l

/-- The per-group construction loop of `GlobsFileIter::new` (lines 93-186):
for each group, compile its globset (eagerly — an invalid pattern aborts
the construction), then walk its base with the `filter_entry` predicate,
keep file entries, and apply the per-file filter. -/
def groupsLoop (compile : String → Option (String → Bool))
    (walkFn : String → Nat → (String → Bool → Bool) → List (String × Bool))
    (main_base : String) (useRel : Bool) (excl : Option (String → Bool))
    (max_depth : Option Nat) : List GlobGroup → Except String (List (List String))
  | [] => Except.ok []
  | g :: rest =>
    match get_glob_set compile g.patterns with
    | Except.error e => Except.error e
    | Except.ok globset =>
      match groupsLoop compile walkFn main_base useRel excl max_depth rest with
      | Except.error e => Except.error e
      | Except.ok ls =>
        Except.ok
          ((((walkFn g.base (get_depth g.patterns max_depth)
                (groupFilterEntry excl useRel g.base g.prefixes)).filter
              (fun e => !e.2)).map (fun e => e.1)).filter
            (groupFileFilter excl useRel main_base g.base globset) :: ls)

/-- `GlobsFileIter::new` up to the per-group file lists (lines 13-186):
preprocess negated patterns, group the includes, compile the exclude set
(defaulted), and build each group's (lazy, here eager) file list. -/
def globsFileIterGroupLists (compile : String → Option (String → Bool))
    (walkFn : String → Nat → (String → Bool → Bool) → List (String × Bool))
    (dir : String) (include_globs : Option (List String))
    (list_options : Option ListOptions) : Except String (List (List String)) :=
  match (match globsFileIterExcludeChoice include_globs list_options with
         | some ps => Except.map some (get_glob_set compile ps)
         | none => Except.ok none) with
  | Except.error e => Except.error e
  | Except.ok excl =>
    groupsLoop compile walkFn (spath_new dir)
      (match applyNegatedExcludes list_options (processIncludeGlobsFile include_globs).2 with
       | some o => o.relative_glob
       | none => false)
      excl
      ((applyNegatedExcludes list_options (processIncludeGlobsFile include_globs).2).bind
        (fun o => o.depth))
      (process_globs (spath_new dir) (processIncludeGlobsFile include_globs).1)

/-- `GlobsFileIter::new` (lines 13-209): the chained per-group file lists,
deduplicated across groups by absolute path, first occurrence first. -/
def globsFileIterNew (compile : String → Option (String → Bool))
    (walkFn : String → Nat → (String → Bool → Bool) → List (String × Bool))
    (dir : String) (include_globs : Option (List String))
    (list_options : Option ListOptions) : Except String (List String) :=
  match globsFileIterGroupLists compile walkFn dir include_globs list_options with
  | Except.error e => Except.error e
  | Except.ok gls => Except.ok (dedupScan gls.flatten)

/-! ## Component-level walker model for the pruning refinement (C1)

To compare the pruned per-group walk against a non-pruned brute-force
reference, the walk of one glob group is modelled at the level of path
components: a directory tree (`walkdir`'s view of the filesystem, per the
§6 walk-primitive contract), paths relative to the group base as component
lists (`SPath::diff` against the base always succeeds below the base, and
camino's `starts_with` is exactly the component-prefix test), and the
group's compiled globset and the exclude globset as abstract predicates on
those relative paths (the §6 glob-compiler contract; `exclD`/`exclF` cover
both the relative and absolute matching modes, which differ only in which
fixed base the relative path is rendered against). -/

/-- A finite directory tree: the filesystem below one directory entry. -/
inductive FsTree where
  | file (name : String)
  | dir (name : String) (children : List FsTree)

/-- One glob group's walk inputs: the group base (absolute components),
the directory contents at the base, the compiled group globset and the
exclude matchers, the literal-prefix set (components), and the resolved
walk depth. -/
structure GroupRun where
  base : List String
  children : List FsTree
  matcher : List String → Bool
  exclD : List String → Bool
  exclF : List String → Bool
  prefixes : List (List String)
  depth : Nat

/-- `directory_matches_allowed_prefixes` over component lists: allowed at
the base itself (`rel = []`), or when some allowed prefix is
component-prefix related (either way) to the relative path. -/
def dirMatchesPrefixesC (rel : List String) (prefixes : List (List String)) : Bool :=
  if prefixes.isEmpty then true
  else if rel == [] then true
  else prefixes.any (fun q => q == ([] : List String) || q.isPrefixOf rel || rel.isPrefixOf q)

/-- The `filter_entry` closure of the per-group walk (lines 120-152) over
components: a directory is rejected when the exclude set matches it or
(in the pruned walker only) when it fails the literal-prefix test; files
always pass.  `pruned = false` is the brute-force reference: identical
except that it never consults the prefix set. -/
def groupPredC (pruned : Bool) (g : GroupRun) (rel : List String) (isDir : Bool) : Bool :=
  if isDir then
    if g.exclD rel then false
    else if pruned && !g.prefixes.isEmpty && !(dirMatchesPrefixesC rel g.prefixes) then false
    else true
  else true

/-- The depth-bounded `WalkDir` traversal below one entry: yield the entry
(if the predicate admits it), then — while depth remains and the entry is
an admitted directory — its children, depth-first. -/
def walkSub (pred : List String → Bool → Bool) :
    Nat → List String → FsTree → List (List String × Bool)
  | _, rel, FsTree.file n =>
    if pred (rel ++ [n]) false then [(rel ++ [n], false)] else []
  | d, rel, FsTree.dir n cs =>
    if pred (rel ++ [n]) true then
      (rel ++ [n], true) ::
        (match d with
         | 0 => []
         | d' + 1 => (cs.map (walkSub pred d' (rel ++ [n]))).flatten)
    else []

/-- The walk of one group from its base (`WalkDir::new(base)
.max_depth(depth)` with `filter_entry`): the base directory itself is the
root entry at relative path `[]`. -/
def walkGroup (pred : List String → Bool → Bool) (maxDepth : Nat)
    (cs : List FsTree) : List (List String × Bool) :=
  if pred [] true then
    ([], true) ::
      (match maxDepth with
       | 0 => []
       | d + 1 => (cs.map (walkSub pred d [])).flatten)
  else []

/-- The per-group file pipeline (lines 153-184): keep file entries, then
drop excluded files and keep those matching the group's globset. -/
def keptFilesC (g : GroupRun) (es : List (List String × Bool)) : List (List String) :=
  ((es.filter (fun e => !e.2)).map (fun e => e.1)).filter
    (fun r => !(g.exclF r) && g.matcher r)

/-- One group's yielded relative paths, pruned or brute-force. -/
def groupFilesC (pruned : Bool) (g : GroupRun) : List (List String) :=
  keptFilesC g (walkGroup (groupPredC pruned g) g.depth g.children)

/-- The chained, cross-group-deduplicated absolute paths of
`GlobsFileIter` over the component model (lines 189-204). -/
def globsFileIterOutC (pruned : Bool) (gs : List GroupRun) : List (List String) :=
  dedupScan ((gs.map (fun g => (groupFilesC pruned g).map (fun r => g.base ++ r))).flatten)

/-! ## A concrete glob matcher

Modelled from the spec: the external glob compiler collaborator (§6) is
only a contract ("compiles a single match predicate over pattern strings");
for concrete evaluations a standard glob matcher is modelled with literal
characters, `?` (any one character) and `*` (any character sequence —
`sort_by_globs` compiles without `literal_separator`, so `*` crosses `/`,
and `**` behaves likewise).  Fuel-based for kernel reducibility. -/
def globMatchFuel : Nat → List Char → List Char → Bool
  | 0, _, _ => false
  | _ + 1, [], [] => true
  | _ + 1, [], _ :: _ => false
  | f + 1, '*' :: ps, s =>
    globMatchFuel f ps s ||
      (match s with
       | [] => false
       | _ :: ss => globMatchFuel f ('*' :: ps) ss)
  | f + 1, '?' :: ps, s =>
    (match s with
     | [] => false
     | _ :: ss => globMatchFuel f ps ss)
  | f + 1, c :: ps, s =>
    (match s with
     | [] => false
     | d :: ss => c == d && globMatchFuel f ps ss)

/-- Modelled from the spec: the compiled matcher for one glob pattern. -/
def globMatch (pattern path : String) : Bool :=
  globMatchFuel (pattern.data.length + path.data.length + 1) pattern.data path.data

/-- Modelled from the spec: a glob compiler that always succeeds, compiling
to the modelled matcher. -/
def specCompile : String → Option (String → Bool) :=
  fun p => some (globMatch p)

end SimpleFs

namespace SimpleFs

/-! ## Lemmas about the comparator-based sort -/

theorem insertByCmp_perm {α : Type} (cmp : α → α → Ordering) (x : α) (l : List α) :
    (insertByCmp cmp x l).Perm (x :: l) := by
  induction l with
  | nil => exact List.Perm.refl _
  | cons y ys ih =>
    simp only [insertByCmp]
    split
    · exact ((ih.cons y).trans (List.Perm.swap x y ys))
    · exact List.Perm.refl _

theorem sortByCmp_perm {α : Type} (cmp : α → α → Ordering) (l : List α) :
    (sortByCmp cmp l).Perm l := by
  induction l with
  | nil => exact List.Perm.refl _
  | cons x xs ih =>
    exact (insertByCmp_perm cmp x (sortByCmp cmp xs)).trans (ih.cons x)

theorem mem_insertByCmp {α : Type} {cmp : α → α → Ordering} {x y : α} {l : List α} :
    y ∈ insertByCmp cmp x l ↔ y = x ∨ y ∈ l := by
  rw [(insertByCmp_perm cmp x l).mem_iff, List.mem_cons]

/-- Transitivity of "does not compare greater". -/
def CmpTrans {α : Type} (cmp : α → α → Ordering) : Prop :=
  ∀ a b c, cmp a b ≠ Ordering.gt → cmp b c ≠ Ordering.gt → cmp a c ≠ Ordering.gt

/-- Comparing greater one way forbids comparing greater the other way. -/
def CmpAsymm {α : Type} (cmp : α → α → Ordering) : Prop :=
  ∀ a b, cmp a b = Ordering.gt → cmp b a ≠ Ordering.gt

theorem insertByCmp_sorted {α : Type} {cmp : α → α → Ordering}
    (htrans : CmpTrans cmp) (hasym : CmpAsymm cmp) (x : α) :
    ∀ {l : List α}, l.Pairwise (fun a b => cmp a b ≠ Ordering.gt) →
      (insertByCmp cmp x l).Pairwise (fun a b => cmp a b ≠ Ordering.gt) := by
  intro l hl
  induction l with
  | nil => exact List.pairwise_singleton _ _
  | cons y ys ih =>
    rcases List.pairwise_cons.mp hl with ⟨hy, hys⟩
    simp only [insertByCmp]
    split
    · refine List.pairwise_cons.mpr ⟨?_, ih hys⟩
      intro z hz
      rcases mem_insertByCmp.mp hz with rfl | hz
      · next hgt => exact hasym _ _ hgt
      · exact hy z hz
    · next hng =>
      refine List.pairwise_cons.mpr ⟨?_, hl⟩
      intro z hz
      rcases List.mem_cons.mp hz with rfl | hz
      · exact hng
      · exact htrans x y z hng (hy z hz)

theorem sortByCmp_sorted {α : Type} {cmp : α → α → Ordering}
    (htrans : CmpTrans cmp) (hasym : CmpAsymm cmp) (l : List α) :
    (sortByCmp cmp l).Pairwise (fun a b => cmp a b ≠ Ordering.gt) := by
  induction l with
  | nil => exact List.Pairwise.nil
  | cons x xs ih => exact insertByCmp_sorted htrans hasym x ih

/-! ## Facts about the string comparator -/

theorem cmpChar_eq_iff {a b : Char} : cmpChar a b = Ordering.eq ↔ a = b := by
  unfold cmpChar
  rw [Nat.compare_eq_eq]
  exact ⟨fun h => Char.ext (UInt32.toNat.inj h), fun h => by rw [h]⟩

theorem cmpCharList_eq_iff : ∀ {x y : List Char}, cmpCharList x y = Ordering.eq ↔ x = y := by
  intro x
  induction x with
  | nil => intro y; cases y <;> simp [cmpCharList]
  | cons a as ih =>
    intro y
    cases y with
    | nil => simp [cmpCharList]
    | cons b bs =>
      simp only [cmpCharList]
      rcases h : cmpChar a b with _ | _ | _
      · simp only [List.cons.injEq]
        constructor
        · intro hc; cases hc
        · rintro ⟨rfl, rfl⟩
          rw [cmpChar_eq_iff.mpr rfl] at h
          cases h
      · simp only [List.cons.injEq, ih]
        have : a = b := cmpChar_eq_iff.mp h
        simp [this]
      · simp only [List.cons.injEq]
        constructor
        · intro hc; cases hc
        · rintro ⟨rfl, rfl⟩
          rw [cmpChar_eq_iff.mpr rfl] at h
          cases h

theorem cmpCharList_trans :
    ∀ (x y z : List Char), cmpCharList x y ≠ Ordering.gt →
      cmpCharList y z ≠ Ordering.gt → cmpCharList x z ≠ Ordering.gt := by
  intro x
  induction x with
  | nil =>
    intro y z _ _
    cases z <;> simp [cmpCharList]
  | cons a as ih =>
    intro y z h1 h2
    cases y with
    | nil => simp [cmpCharList] at h1
    | cons b bs =>
      cases z with
      | nil => simp [cmpCharList] at h2
      | cons c cs =>
        simp only [cmpCharList] at h1 h2 ⊢
        rcases hab : cmpChar a b with _ | _ | _ <;> rw [hab] at h1
        · -- a < b
          rcases hbc : cmpChar b c with _ | _ | _ <;> rw [hbc] at h2
          · have hac : a.toNat < c.toNat :=
              lt_trans (Nat.compare_eq_lt.mp hab) (Nat.compare_eq_lt.mp hbc)
            rw [show cmpChar a c = Ordering.lt from Nat.compare_eq_lt.mpr hac]
            simp
          · have hbceq : b = c := cmpChar_eq_iff.mp hbc
            rw [show cmpChar a c = Ordering.lt from by
              rw [← hbceq]; exact hab]
            simp
          · exact absurd rfl h2
        · -- a = b
          have habeq : a = b := cmpChar_eq_iff.mp hab
          subst habeq
          rcases hbc : cmpChar a c with _ | _ | _ <;> rw [hbc] at h2
          · simp
          · exact ih bs cs h1 h2
          · exact absurd rfl h2
        · exact absurd rfl h1

theorem cmpCharList_swap :
    ∀ (x y : List Char), cmpCharList y x = (cmpCharList x y).swap := by
  intro x
  induction x with
  | nil => intro y; cases y <;> simp [cmpCharList, Ordering.swap]
  | cons a as ih =>
    intro y
    cases y with
    | nil => simp [cmpCharList, Ordering.swap]
    | cons b bs =>
      simp only [cmpCharList]
      have hswap : cmpChar b a = (cmpChar a b).swap := (Nat.compare_swap _ _).symm
      rcases hab : cmpChar a b with _ | _ | _ <;>
        rw [hab] at hswap <;> rw [hswap] <;> simp [Ordering.swap]
      exact ih bs

theorem cmpCharList_asymm (x y : List Char)
    (h : cmpCharList x y = Ordering.gt) : cmpCharList y x ≠ Ordering.gt := by
  rw [cmpCharList_swap y x] at h
  rcases h' : cmpCharList y x with _ | _ | _ <;> rw [h'] at h <;>
    simp [Ordering.swap] at h ⊢

theorem cmpStr_trans : CmpTrans cmpStr :=
  fun a b c h1 h2 => cmpCharList_trans a.data b.data c.data h1 h2

theorem cmpStr_asymm : CmpAsymm cmpStr :=
  fun a b h => cmpCharList_asymm a.data b.data h

theorem cmpStr_antisymm {a b : String}
    (h1 : cmpStr a b ≠ Ordering.gt) (h2 : cmpStr b a ≠ Ordering.gt) : a = b := by
  rcases h : cmpStr a b with _ | _ | _
  · exfalso
    apply h2
    have h' : cmpCharList a.data b.data = Ordering.lt := h
    show cmpCharList b.data a.data = Ordering.gt
    rw [cmpCharList_swap a.data b.data, h']
    rfl
  · exact String.ext (cmpCharList_eq_iff.mp h)
  · exact absurd h h1

/-! ## Lemmas about `dedupAdj` and `normalize_prefixes` -/

theorem mem_dedupAdj : ∀ (l : List String) (y : String), y ∈ dedupAdj l → y ∈ l
  | [], y, h => by simp [dedupAdj] at h
  | [a], y, h => by simpa [dedupAdj] using h
  | a :: b :: t, y, h => by
    simp only [dedupAdj] at h
    split at h
    · exact List.mem_cons_of_mem _ (mem_dedupAdj (b :: t) y h)
    · rcases List.mem_cons.mp h with rfl | h'
      · exact List.mem_cons_self _ _
      · exact List.mem_cons_of_mem _ (mem_dedupAdj (b :: t) y h')

theorem dedupAdj_nodup :
    ∀ (l : List String), l.Pairwise (fun a b => cmpStr a b ≠ Ordering.gt) →
      (dedupAdj l).Nodup
  | [], _ => by simp [dedupAdj]
  | [a], _ => by simp [dedupAdj]
  | a :: b :: t, hp => by
    rcases List.pairwise_cons.mp hp with ⟨ha, hbt⟩
    simp only [dedupAdj]
    split
    · exact dedupAdj_nodup (b :: t) hbt
    · next hne =>
      refine List.nodup_cons.mpr ⟨?_, dedupAdj_nodup (b :: t) hbt⟩
      intro hmem
      have hmem' : a ∈ b :: t := mem_dedupAdj _ _ hmem
      have hab : cmpStr a b ≠ Ordering.gt := ha b (List.mem_cons_self _ _)
      rcases List.mem_cons.mp hmem' with heq | hat
      · exact hne (by simp [heq])
      · have hba : cmpStr b a ≠ Ordering.gt := (List.pairwise_cons.mp hbt).1 a hat
        exact hne (by simp [cmpStr_antisymm hab hba])

theorem normalize_prefixes_nodup (l : List String) : (normalize_prefixes l).Nodup := by
  unfold normalize_prefixes
  split
  · next hc => rw [(by simpa using hc : l = [])]; exact List.nodup_nil
  · split
    · exact List.nodup_nil
    · exact dedupAdj_nodup _ (sortByCmp_sorted cmpStr_trans cmpStr_asymm l)

theorem normalize_prefixes_empty_member {l : List String} (h : "" ∈ l) :
    normalize_prefixes l = [] := by
  unfold normalize_prefixes
  split
  · next hc =>
    rw [(by simpa using hc : l = [])] at h
    cases h
  · rw [if_pos (List.any_eq_true.mpr ⟨"", h, by simp⟩)]

/-! ## Lemmas about `prefixLoop` and `glob_literal_prefixes` -/

theorem expand_brace_ne_nil {seg : String} {options : List String}
    (h : expand_brace_segment seg = some options) : options ≠ [] := by
  unfold expand_brace_segment at h
  split at h
  · split at h
    · cases h
    · split at h
      · cases h
      · next hne =>
        rcases Option.some.inj h with rfl
        simp only [ne_eq, List.map_eq_nil_iff]
        intro hnil
        exact hne (by simp [hnil])
  · cases h

theorem flatten_map_ne_nil {acc options : List String}
    (hacc : acc ≠ []) (hopt : options ≠ []) :
    (acc.map (fun p => options.map (fun o => joinSeg p o))).flatten ≠ [] := by
  rcases acc with _ | ⟨p, ps⟩
  · exact absurd rfl hacc
  · rcases options with _ | ⟨o, os⟩
    · exact absurd rfl hopt
    · simp

/-- The prefix accumulation ignores every segment after a stopping
(`..` or wildcard) segment: the loop result does not depend on them. -/
theorem prefixLoop_stop_indep {seg : String}
    (hstop : (seg == ".." || segment_contains_wildcard seg) = true) :
    ∀ (pre rest rest' : List String) (acc : List String),
      prefixLoop (pre ++ seg :: rest) acc = prefixLoop (pre ++ seg :: rest') acc := by
  intro pre
  induction pre with
  | nil =>
    intro rest rest' acc
    simp only [List.nil_append, prefixLoop, hstop]
    rfl
  | cons x pre ih =>
    intro rest rest' acc
    simp only [List.cons_append, prefixLoop]
    split
    · rfl
    · split
      · split
        · rfl
        · exact ih _ _ _
      · split
        · rfl
        · split
          · rfl
          · exact ih _ _ _

/-- Stop at the first wildcard or `..` segment: everything accumulated so
far is returned. -/
theorem prefixLoop_stop {seg : String}
    (hstop : (seg == ".." || segment_contains_wildcard seg) = true)
    (rest acc : List String) :
    prefixLoop (seg :: rest) acc = acc := by
  simp only [prefixLoop, hstop]
  rfl

/-- A clean brace-alternation segment is expanded as a cartesian product
with every accumulated prefix. -/
theorem prefixLoop_brace_step {seg : String} {options : List String}
    (hstop : (seg == ".." || segment_contains_wildcard seg) = false)
    (hexp : expand_brace_segment seg = some options)
    {acc : List String} (hacc : acc ≠ []) (rest : List String) :
    prefixLoop (seg :: rest) acc =
      prefixLoop rest ((acc.map (fun p => options.map (fun o => joinSeg p o))).flatten) := by
  have hopt : options ≠ [] := expand_brace_ne_nil hexp
  have hne : ((acc.map (fun p => options.map (fun o => joinSeg p o))).flatten == []) = false :=
    beq_eq_false_iff_ne.mpr (flatten_map_ne_nil hacc hopt)
  simp [prefixLoop, hstop, hexp, hne]

/-- A segment whose braces cannot be cleanly parsed stops the walk. -/
theorem prefixLoop_bad_brace_stop {seg : String}
    (hstop : (seg == ".." || segment_contains_wildcard seg) = false)
    (hexp : expand_brace_segment seg = none)
    (hbrace : (seg.data.contains '{' || seg.data.contains '}') = true)
    (rest acc : List String) :
    prefixLoop (seg :: rest) acc = acc := by
  simp only [prefixLoop, hstop, hexp, hbrace]
  rfl

/-- A literal segment is appended to every accumulated prefix. -/
theorem prefixLoop_literal_step {seg : String}
    (hstop : (seg == ".." || segment_contains_wildcard seg) = false)
    (hexp : expand_brace_segment seg = none)
    (hbrace : (seg.data.contains '{' || seg.data.contains '}') = false)
    {acc : List String} (hacc : acc ≠ []) (rest : List String) :
    prefixLoop (seg :: rest) acc =
      prefixLoop rest (acc.map (fun p => joinSeg p seg)) := by
  have hne : (acc.map (fun p => joinSeg p seg) == []) = false :=
    beq_eq_false_iff_ne.mpr (fun hc => hacc (List.map_eq_nil_iff.mp hc))
  have hb1 : ¬ '{' ∈ seg.data := by simpa using (Bool.or_eq_false_iff.mp hbrace).1
  have hb2 : ¬ '}' ∈ seg.data := by simpa using (Bool.or_eq_false_iff.mp hbrace).2
  simp [prefixLoop, hstop, hexp, hne, hb1, hb2]

theorem glob_literal_prefixes_short {pattern : String}
    (h : (patternSegments pattern).length ≤ 1) :
    glob_literal_prefixes pattern = [] := by
  unfold glob_literal_prefixes
  rw [if_pos h]
  split <;> rfl

/-- C7: the literal-prefix extractor returns the empty list when the
pattern (after dropping leading `./`) has at most one `/`-separated segment;
it accumulates prefixes over the non-final segments left to right, stopping
at the first segment that contains a wildcard character or equals `..` (the
result is then independent of all later segments), expanding an un-nested
brace-alternation segment as a cartesian product with every accumulated
prefix, and stopping when a segment's braces cannot be cleanly parsed; the
normalized prefix set is deduplicated and is empty whenever any member is
the empty string.  Concrete evaluations of the extractor are included. -/
theorem C7_literal_prefix_extractor :
    (∀ pattern, (patternSegments pattern).length ≤ 1 →
      glob_literal_prefixes pattern = []) ∧
    (∀ seg, (seg == ".." || segment_contains_wildcard seg) = true →
      ∀ pre rest rest' acc,
        prefixLoop (pre ++ seg :: rest) acc = prefixLoop (pre ++ seg :: rest') acc) ∧
    (∀ seg rest acc, (seg == ".." || segment_contains_wildcard seg) = true →
      prefixLoop (seg :: rest) acc = acc) ∧
    (∀ seg options rest acc, (seg == ".." || segment_contains_wildcard seg) = false →
      expand_brace_segment seg = some options → acc ≠ [] →
      prefixLoop (seg :: rest) acc =
        prefixLoop rest ((acc.map (fun p => options.map (fun o => joinSeg p o))).flatten)) ∧
    (∀ seg rest acc, (seg == ".." || segment_contains_wildcard seg) = false →
      expand_brace_segment seg = none →
      (seg.data.contains '{' || seg.data.contains '}') = true →
      prefixLoop (seg :: rest) acc = acc) ∧
    (∀ l, "" ∈ l → normalize_prefixes l = []) ∧
    (∀ l, (normalize_prefixes l).Nodup) ∧
    glob_literal_prefixes "assets/images/*.png" = ["assets/images"] ∧
    glob_literal_prefixes "{a,b}/c/*.rs" = ["a/c", "b/c"] ∧
    glob_literal_prefixes "a.txt" = [] :=
  ⟨fun _ h => glob_literal_prefixes_short h,
   fun _ h _ _ _ _ => prefixLoop_stop_indep h _ _ _ _,
   fun _ rest acc h => prefixLoop_stop h rest acc,
   fun _ _ rest acc h hexp hacc => prefixLoop_brace_step h hexp hacc rest,
   fun _ rest acc h hexp hbr => prefixLoop_bad_brace_stop h hexp hbr rest acc,
   fun _ h => normalize_prefixes_empty_member h,
   normalize_prefixes_nodup,
   by decide, by decide, by decide⟩

/-- C7 witness: applies `C7_literal_prefix_extractor` at concrete inputs,
discharging each hypothesis concretely. -/
theorem C7_literal_prefix_extractor_witness :
    glob_literal_prefixes "a.md" = [] ∧
    prefixLoop (["a"] ++ "*" :: ["b"]) [""] = prefixLoop (["a"] ++ "*" :: ["c"]) [""] ∧
    prefixLoop ["*.rs"] ["x"] = ["x"] ∧
    prefixLoop ["{a,b}", "c"] ["x"] =
      prefixLoop ["c"] (([ "x" ].map (fun p => ["a", "b"].map (fun o => joinSeg p o))).flatten) ∧
    prefixLoop ["{a,{b}}"] ["x"] = ["x"] ∧
    normalize_prefixes ["a", ""] = [] ∧
    (normalize_prefixes ["b", "a", "a"]).Nodup :=
  ⟨C7_literal_prefix_extractor.1 "a.md" (by decide),
   C7_literal_prefix_extractor.2.1 "*" (by decide) ["a"] ["b"] ["c"] [""],
   C7_literal_prefix_extractor.2.2.1 "*.rs" [] ["x"] (by decide),
   C7_literal_prefix_extractor.2.2.2.1 "{a,b}" ["a", "b"] ["c"] ["x"]
     (by decide) (by decide) (by decide),
   C7_literal_prefix_extractor.2.2.2.2.1 "{a,{b}}" [] ["x"] (by decide) (by decide) (by decide),
   C7_literal_prefix_extractor.2.2.2.2.2.1 ["a", ""] (by decide),
   C7_literal_prefix_extractor.2.2.2.2.2.2.1 ["b", "a", "a"]⟩

/-! ## Lemmas about the negated-pattern preprocessing -/

theorem splitNegated_all_neg {globs : List String}
    (h : ∀ g ∈ globs, isNegated g = true) :
    splitNegated globs = ([], globs.map (fun p => stripNegation p)) := by
  induction globs with
  | nil => rfl
  | cons p rest ih =>
    have hp : isNegated p = true := h p (List.mem_cons_self _ _)
    have ihr := ih (fun g hg => h g (List.mem_cons_of_mem _ hg))
    simp [splitNegated, hp, ihr]

theorem splitNegated_no_neg {globs : List String}
    (h : ∀ g ∈ globs, isNegated g = false) :
    splitNegated globs = (globs, []) := by
  induction globs with
  | nil => rfl
  | cons p rest ih =>
    have hp : isNegated p = false := h p (List.mem_cons_self _ _)
    have ihr := ih (fun g hg => h g (List.mem_cons_of_mem _ hg))
    simp [splitNegated, hp, ihr]

theorem applyNegatedExcludes_nil (opts : Option ListOptions) :
    applyNegatedExcludes opts [] = opts := rfl

/-- C3: when every supplied include pattern is negated and at least one
exists, the file iterator substitutes the single include pattern `"**"`,
and all the negated patterns with `!` stripped are appended to the
options' exclude set after any caller-supplied excludes (the other option
fields are preserved; fresh defaults when no options were supplied). -/
theorem C3_negation_fallback (globs : List String) (opts : Option ListOptions)
    (hne : globs ≠ []) (hneg : ∀ g ∈ globs, isNegated g = true) :
    (processIncludeGlobsFile (some globs)).1 = ["**"] ∧
    (processIncludeGlobsFile (some globs)).2 = globs.map (fun p => stripNegation p) ∧
    ∃ newOpts,
      applyNegatedExcludes opts (processIncludeGlobsFile (some globs)).2 = some newOpts ∧
      newOpts.exclude_globs =
        some ((match opts with | some o => o.exclude_globs.getD [] | none => []) ++
          globs.map (fun p => stripNegation p)) ∧
      newOpts.relative_glob = (match opts with | some o => o.relative_glob | none => false) ∧
      newOpts.depth = (match opts with | some o => o.depth | none => none) := by
  have hsplit := splitNegated_all_neg hneg
  have hmapne : globs.map (fun p => stripNegation p) ≠ [] :=
    fun h => hne (List.map_eq_nil_iff.mp h)
  have hmapbeq : (globs.map (fun p => stripNegation p) == []) = false :=
    beq_eq_false_iff_ne.mpr hmapne
  have hproc : processIncludeGlobsFile (some globs) =
      (["**"], globs.map (fun p => stripNegation p)) := by
    simp [processIncludeGlobsFile, hsplit, hmapbeq]
  refine ⟨by rw [hproc], by rw [hproc], ?_⟩
  rw [hproc]
  show ∃ newOpts, applyNegatedExcludes opts (globs.map (fun p => stripNegation p)) = some newOpts ∧ _
  unfold applyNegatedExcludes
  rw [hmapbeq]
  match opts with
  | some o =>
    match hoe : o.exclude_globs with
    | some existing =>
      refine ⟨_, rfl, ?_, rfl, rfl⟩
      simp [hoe]
    | none =>
      refine ⟨_, rfl, ?_, rfl, rfl⟩
      simp [hoe]
  | none =>
    exact ⟨_, rfl, by simp, rfl, rfl⟩

/-- C3 witness: applies `C3_negation_fallback` at a concrete all-negated
include list with concrete caller options. -/
theorem C3_negation_fallback_witness :
    (processIncludeGlobsFile (some ["!**/dir2", "!x"])).1 = ["**"] ∧
    (processIncludeGlobsFile (some ["!**/dir2", "!x"])).2 =
      ["!**/dir2", "!x"].map (fun p => stripNegation p) ∧
    ∃ newOpts,
      applyNegatedExcludes (some ⟨some ["cal"], true, some 3⟩)
          (processIncludeGlobsFile (some ["!**/dir2", "!x"])).2 = some newOpts ∧
      newOpts.exclude_globs =
        some ((match (some ⟨some ["cal"], true, some 3⟩ : Option ListOptions) with
          | some o => o.exclude_globs.getD [] | none => []) ++
          ["!**/dir2", "!x"].map (fun p => stripNegation p)) ∧
      newOpts.relative_glob =
        (match (some ⟨some ["cal"], true, some 3⟩ : Option ListOptions) with
          | some o => o.relative_glob | none => false) ∧
      newOpts.depth =
        (match (some ⟨some ["cal"], true, some 3⟩ : Option ListOptions) with
          | some o => o.depth | none => none) :=
  C3_negation_fallback ["!**/dir2", "!x"] (some ⟨some ["cal"], true, some 3⟩)
    (by decide) (by decide)

/-- C8 counterexample: with no caller-supplied exclude set, the directory
iterator compiles no exclude set at all, while the claim demands the default
exclude set for both entry points; the file iterator does apply it. -/
theorem C8_counterexample_dir_no_default :
    globsDirIterExcludeChoice none none = none ∧
    globsFileIterExcludeChoice none none = some DEFAULT_EXCLUDE_GLOBS ∧
    DEFAULT_EXCLUDE_GLOBS ≠ [] :=
  ⟨rfl, rfl, by decide⟩

/-- C8 amended: whenever the caller does not supply an exclude-glob set
(and no negated include pattern injects one), the file-listing entry point
applies the default exclude set, but the directory-listing entry point
applies no exclude set at all. -/
theorem C8_default_excludes_file_only (include_globs : Option (List String))
    (opts : Option ListOptions)
    (hopts : opts.bind (fun o => o.exclude_globs) = none)
    (hneg : ∀ gs, include_globs = some gs → ∀ g ∈ gs, isNegated g = false) :
    globsFileIterExcludeChoice include_globs opts = some DEFAULT_EXCLUDE_GLOBS ∧
    globsDirIterExcludeChoice include_globs opts = none := by
  have hfile2 : (processIncludeGlobsFile include_globs).2 = [] := by
    match include_globs with
    | none => rfl
    | some gs =>
      have := splitNegated_no_neg (hneg gs rfl)
      simp [processIncludeGlobsFile, this]
  have hdir2 : (processIncludeGlobsDir include_globs).2 = [] := by
    match include_globs with
    | none => rfl
    | some gs =>
      have := splitNegated_no_neg (hneg gs rfl)
      simp [processIncludeGlobsDir, this]
  constructor
  · unfold globsFileIterExcludeChoice
    rw [hfile2, applyNegatedExcludes_nil, hopts]
    rfl
  · unfold globsDirIterExcludeChoice
    rw [hdir2, applyNegatedExcludes_nil, hopts]

/-- C8 amended witness: applies `C8_default_excludes_file_only` at concrete
inputs. -/
theorem C8_default_excludes_file_only_witness :
    globsFileIterExcludeChoice (some ["**/*.rs"]) (some ⟨none, false, none⟩) =
      some DEFAULT_EXCLUDE_GLOBS ∧
    globsDirIterExcludeChoice (some ["**/*.rs"]) (some ⟨none, false, none⟩) = none :=
  C8_default_excludes_file_only (some ["**/*.rs"]) (some ⟨none, false, none⟩)
    rfl (by intro gs hgs g hg; cases hgs; simp at hg; rw [hg]; decide)

/-! ## Lemmas about the priority sorter -/

theorem sortCmp_ne_gt_iff {ms : List (Nat × (String → Bool))} {ew : Bool} {a b : String} :
    sortCmp ms ew a b ≠ Ordering.gt ↔
      (match_index_for_path a ms ew < match_index_for_path b ms ew ∨
        (match_index_for_path a ms ew = match_index_for_path b ms ew ∧
          cmpStr a b ≠ Ordering.gt)) := by
  unfold sortCmp
  rcases h : compare (match_index_for_path a ms ew) (match_index_for_path b ms ew)
    with _ | _ | _
  · constructor
    · intro _
      exact Or.inl (Nat.compare_eq_lt.mp h)
    · intro _ hc
      cases hc
  · constructor
    · intro hc
      exact Or.inr ⟨Nat.compare_eq_eq.mp h, hc⟩
    · rintro (hlt | ⟨_, hc⟩)
      · exact absurd ((Nat.compare_eq_eq.mp h) ▸ hlt) (lt_irrefl _)
      · exact hc
  · constructor
    · intro hc
      exact absurd rfl hc
    · rintro (hlt | ⟨heq, _⟩)
      · exact absurd (lt_trans hlt (Nat.compare_eq_gt.mp h)) (lt_irrefl _)
      · exact absurd (heq ▸ (Nat.compare_eq_gt.mp h)) (lt_irrefl _)

theorem sortCmp_eq_gt_iff {ms : List (Nat × (String → Bool))} {ew : Bool} {a b : String} :
    sortCmp ms ew a b = Ordering.gt ↔
      (match_index_for_path b ms ew < match_index_for_path a ms ew ∨
        (match_index_for_path a ms ew = match_index_for_path b ms ew ∧
          cmpStr a b = Ordering.gt)) := by
  unfold sortCmp
  rcases h : compare (match_index_for_path a ms ew) (match_index_for_path b ms ew)
    with _ | _ | _
  · constructor
    · intro hc
      cases hc
    · rintro (hlt | ⟨heq, _⟩)
      · exact absurd (lt_trans hlt (Nat.compare_eq_lt.mp h)) (lt_irrefl _)
      · exact absurd (heq ▸ (Nat.compare_eq_lt.mp h)) (lt_irrefl _)
  · constructor
    · intro hc
      exact Or.inr ⟨Nat.compare_eq_eq.mp h, hc⟩
    · rintro (hlt | ⟨_, hc⟩)
      · exact absurd ((Nat.compare_eq_eq.mp h) ▸ hlt) (lt_irrefl _)
      · exact hc
  · constructor
    · intro _
      exact Or.inl (Nat.compare_eq_gt.mp h)
    · intro _
      rfl

theorem sortCmp_trans (ms : List (Nat × (String → Bool))) (ew : Bool) :
    CmpTrans (sortCmp ms ew) := by
  intro a b c h1 h2
  rw [sortCmp_ne_gt_iff] at h1 h2 ⊢
  rcases h1 with hlt1 | ⟨heq1, hs1⟩
  · rcases h2 with hlt2 | ⟨heq2, _⟩
    · exact Or.inl (lt_trans hlt1 hlt2)
    · exact Or.inl (heq2 ▸ hlt1)
  · rcases h2 with hlt2 | ⟨heq2, hs2⟩
    · exact Or.inl (heq1 ▸ hlt2)
    · exact Or.inr ⟨heq1.trans heq2, cmpStr_trans a b c hs1 hs2⟩

theorem sortCmp_asymm (ms : List (Nat × (String → Bool))) (ew : Bool) :
    CmpAsymm (sortCmp ms ew) := by
  intro a b h hba
  rw [sortCmp_eq_gt_iff] at h hba
  rcases h with hlt1 | ⟨heq1, hs1⟩
  · rcases hba with hlt2 | ⟨heq2, _⟩
    · exact absurd (lt_trans hlt1 hlt2) (lt_irrefl _)
    · exact absurd (heq2 ▸ hlt1) (lt_irrefl _)
  · rcases hba with hlt2 | ⟨_, hs2⟩
    · exact absurd (heq1 ▸ hlt2) (lt_irrefl _)
    · exact cmpStr_asymm a b hs1 hs2

theorem firstFoundIdx_none {path : String} {ms : List (String → Bool)}
    (h : ∀ m ∈ ms, m path = false) (k : Nat) :
    firstFoundIdx path (List.enumFrom k ms) = USIZE_MAX := by
  induction ms generalizing k with
  | nil => rfl
  | cons m t ih =>
    simp only [List.enumFrom, firstFoundIdx, h m (List.mem_cons_self _ _),
      Bool.false_eq_true, if_false]
    exact ih (fun m hm => h m (List.mem_cons_of_mem _ hm)) (k + 1)

theorem firstFoundIdx_at {path : String} :
    ∀ {ms : List (String → Bool)} (k i : Nat) (h : i < ms.length),
      (ms.get ⟨i, h⟩) path = true →
      (∀ j (hj : j < i), (ms.get ⟨j, lt_trans hj h⟩) path = false) →
      firstFoundIdx path (List.enumFrom k ms) = k + i := by
  intro ms
  induction ms with
  | nil =>
    intro k i h
    cases h
  | cons m t ih =>
    intro k i h hm hfirst
    cases i with
    | zero =>
      simp only [List.get] at hm
      simp only [List.enumFrom, firstFoundIdx, hm, if_true, Nat.add_zero]
    | succ i' =>
      have hm0 : m path = false := hfirst 0 (Nat.succ_pos _)
      simp only [List.enumFrom, firstFoundIdx, hm0, Bool.false_eq_true, if_false]
      have := ih (k + 1) i' (Nat.lt_of_succ_lt_succ h)
        (by simpa using hm)
        (fun j hj => by
          have := hfirst (j + 1) (Nat.succ_lt_succ hj)
          simpa using this)
      rw [this]
      omega

theorem lastFoundIdx_none {path : String} {ms : List (String → Bool)}
    (h : ∀ m ∈ ms, m path = false) :
    ∀ (k : Nat) (found : Option Nat),
      lastFoundIdx path found (List.enumFrom k ms) = found := by
  induction ms with
  | nil => intro k found; rfl
  | cons m t ih =>
    intro k found
    simp only [List.enumFrom, lastFoundIdx, h m (List.mem_cons_self _ _),
      Bool.false_eq_true, if_false]
    exact ih (fun m hm => h m (List.mem_cons_of_mem _ hm)) (k + 1) found

theorem lastFoundIdx_at {path : String} :
    ∀ {ms : List (String → Bool)} (k i : Nat) (h : i < ms.length),
      (ms.get ⟨i, h⟩) path = true →
      (∀ j (hj : j < ms.length), i < j → (ms.get ⟨j, hj⟩) path = false) →
      ∀ found, lastFoundIdx path found (List.enumFrom k ms) = some (k + i) := by
  intro ms
  induction ms with
  | nil =>
    intro k i h
    cases h
  | cons m t ih =>
    intro k i h hm hlast found
    cases i with
    | zero =>
      simp only [List.get] at hm
      simp only [List.enumFrom, lastFoundIdx, hm, if_true]
      have htail : ∀ m' ∈ t, m' path = false := by
        intro m' hm'
        rcases List.mem_iff_get.mp hm' with ⟨⟨j, hj⟩, rfl⟩
        have := hlast (j + 1) (Nat.succ_lt_succ hj) (Nat.succ_pos _)
        simpa using this
      rw [lastFoundIdx_none htail (k + 1) (some k), Nat.add_zero]
    | succ i' =>
      simp only [List.enumFrom, lastFoundIdx]
      have := ih (k + 1) i' (Nat.lt_of_succ_lt_succ h)
        (by simpa using hm)
        (fun j hj hij => by
          have := hlast (j + 1) (Nat.succ_lt_succ hj) (Nat.succ_lt_succ hij)
          simpa using this)
        (if m path then some k else found)
      rw [this]
      congr 1
      omega

theorem enumFrom_isEmpty_false {α : Type} (k : Nat) (x : α) (xs : List α) :
    (List.enumFrom k (x :: xs)).isEmpty = false := rfl

theorem match_index_none {path : String} {ms : List (String → Bool)} (ew : Bool)
    (h : ∀ m ∈ ms, m path = false) :
    match_index_for_path path (List.enumFrom 0 ms) ew = USIZE_MAX := by
  unfold match_index_for_path
  cases ms with
  | nil => cases ew <;> rfl
  | cons m t =>
    rw [enumFrom_isEmpty_false]
    cases ew with
    | true =>
      simp only [if_true, Bool.false_eq_true, if_false]
      rw [lastFoundIdx_none h 0 none]
      rfl
    | false =>
      simp only [Bool.false_eq_true, if_false]
      exact firstFoundIdx_none h 0

theorem match_index_first {path : String} {ms : List (String → Bool)}
    {i : Nat} (h : i < ms.length) (hm : (ms.get ⟨i, h⟩) path = true)
    (hfirst : ∀ j (hj : j < i), (ms.get ⟨j, lt_trans hj h⟩) path = false) :
    match_index_for_path path (List.enumFrom 0 ms) false = i := by
  unfold match_index_for_path
  cases ms with
  | nil => cases h
  | cons m t =>
    rw [enumFrom_isEmpty_false]
    simp only [Bool.false_eq_true, if_false]
    have := firstFoundIdx_at 0 i h hm hfirst
    rw [this, Nat.zero_add]

theorem match_index_last {path : String} {ms : List (String → Bool)}
    {i : Nat} (h : i < ms.length) (hm : (ms.get ⟨i, h⟩) path = true)
    (hlast : ∀ j (hj : j < ms.length), i < j → (ms.get ⟨j, hj⟩) path = false) :
    match_index_for_path path (List.enumFrom 0 ms) true = i := by
  unfold match_index_for_path
  cases ms with
  | nil => cases h
  | cons m t =>
    rw [enumFrom_isEmpty_false]
    simp only [if_true, Bool.false_eq_true, if_false]
    rw [lastFoundIdx_at 0 i h hm hlast none, Nat.zero_add]
    rfl

/-- C4: `sort_by_globs` ranks each item by the index of the first matching
pattern (`end_weighted = false`) or the last matching pattern
(`end_weighted = true`), assigns the sentinel `usize::MAX` to items
matching no pattern, and returns the items ordered by (rank ascending,
full path string ascending); on the spec's §8 example with
`end_weighted = true`, `sort.rs` gets rank 2 and `mod.rs` rank 1,
producing `[mod.rs, sort.rs]`. -/
theorem C4_sort_by_globs :
    (∀ (path : String) (ms : List (String → Bool)) (ew : Bool),
      (∀ m ∈ ms, m path = false) →
      match_index_for_path path (List.enumFrom 0 ms) ew = USIZE_MAX) ∧
    (∀ (path : String) (ms : List (String → Bool)) (i : Nat) (h : i < ms.length),
      (ms.get ⟨i, h⟩) path = true →
      (∀ j (hj : j < i), (ms.get ⟨j, lt_trans hj h⟩) path = false) →
      match_index_for_path path (List.enumFrom 0 ms) false = i) ∧
    (∀ (path : String) (ms : List (String → Bool)) (i : Nat) (h : i < ms.length),
      (ms.get ⟨i, h⟩) path = true →
      (∀ j (hj : j < ms.length), i < j → (ms.get ⟨j, hj⟩) path = false) →
      match_index_for_path path (List.enumFrom 0 ms) true = i) ∧
    (∀ compile (items globs : List String) (ew : Bool) (out : List String),
      sort_by_globs compile items globs ew = Except.ok out →
      ∃ ms, buildMatchers compile globs = Except.ok ms ∧
        out = sortByCmp (sortCmp (List.enumFrom 0 ms) ew) items ∧
        out.Perm items ∧
        out.Pairwise (fun a b =>
          match_index_for_path a (List.enumFrom 0 ms) ew <
              match_index_for_path b (List.enumFrom 0 ms) ew ∨
            (match_index_for_path a (List.enumFrom 0 ms) ew =
                match_index_for_path b (List.enumFrom 0 ms) ew ∧
              cmpStr a b ≠ Ordering.gt))) ∧
    sort_by_globs specCompile ["src/list/mod.rs", "src/list/sort.rs"]
        ["src/**", "src/list/**", "src/list/sort.rs"] true =
      Except.ok ["src/list/mod.rs", "src/list/sort.rs"] ∧
    match_index_for_path "src/list/sort.rs"
      (List.enumFrom 0 [globMatch "src/**", globMatch "src/list/**",
        globMatch "src/list/sort.rs"]) true = 2 ∧
    match_index_for_path "src/list/mod.rs"
      (List.enumFrom 0 [globMatch "src/**", globMatch "src/list/**",
        globMatch "src/list/sort.rs"]) true = 1 := by
  refine ⟨fun path ms ew h => match_index_none ew h,
    fun path ms i h hm hfirst => match_index_first h hm hfirst,
    fun path ms i h hm hlast => match_index_last h hm hlast,
    ?_, rfl, by decide, by decide⟩
  intro compile items globs ew out hok
  unfold sort_by_globs at hok
  rcases hbuild : buildMatchers compile globs with g | ms
  · rw [hbuild] at hok
    cases hok
  · rw [hbuild] at hok
    rcases Except.ok.inj hok with rfl
    refine ⟨ms, rfl, rfl, sortByCmp_perm _ _, ?_⟩
    have hs := sortByCmp_sorted (sortCmp_trans (List.enumFrom 0 ms) ew)
      (sortCmp_asymm (List.enumFrom 0 ms) ew) items
    exact hs.imp (fun h => sortCmp_ne_gt_iff.mp h)

/-- C4 witness: applies `C4_sort_by_globs` at concrete matchers, items and
patterns, discharging every hypothesis concretely. -/
theorem C4_sort_by_globs_witness :
    match_index_for_path "zzz" (List.enumFrom 0 [globMatch "a"]) false = USIZE_MAX ∧
    match_index_for_path "a/b"
      (List.enumFrom 0 [globMatch "a*", globMatch "x"]) false = 0 ∧
    match_index_for_path "a/b"
      (List.enumFrom 0 [globMatch "a*", globMatch "a/b"]) true = 1 ∧
    ∃ ms, buildMatchers specCompile ["*"] = Except.ok ms ∧
      ["a", "b"] = sortByCmp (sortCmp (List.enumFrom 0 ms) false) ["b", "a"] ∧
      List.Perm ["a", "b"] ["b", "a"] ∧
      List.Pairwise (fun a b =>
        match_index_for_path a (List.enumFrom 0 ms) false <
            match_index_for_path b (List.enumFrom 0 ms) false ∨
          (match_index_for_path a (List.enumFrom 0 ms) false =
              match_index_for_path b (List.enumFrom 0 ms) false ∧
            cmpStr a b ≠ Ordering.gt)) ["a", "b"] :=
  ⟨C4_sort_by_globs.1 "zzz" [globMatch "a"] false
      (by intro m hm; rcases List.mem_singleton.mp hm with rfl; decide),
   C4_sort_by_globs.2.1 "a/b" [globMatch "a*", globMatch "x"] 0 (by decide)
      (by decide) (fun j hj => absurd hj (Nat.not_lt_zero _)),
   C4_sort_by_globs.2.2.1 "a/b" [globMatch "a*", globMatch "a/b"] 1 (by decide)
      (by decide)
      (fun j hj hlt => absurd (lt_of_lt_of_le hlt (Nat.lt_succ_iff.mp hj)) (lt_irrefl _)),
   C4_sort_by_globs.2.2.2.1 specCompile ["b", "a"] ["*"] false ["a", "b"] rfl⟩

/-! ## Lemmas about `process_globs` on the default include pattern -/

theorem base_str_cleaned_ends_slash {mb : String}
    (h : (base_str_cleaned mb == "") = false) :
    (base_str_cleaned mb).data.getLast? = some '/' := by
  rcases ht : (trimStartDotSlash mb == "") with _ | _
  · rcases hsl : ((trimStartDotSlash mb).data.getLast? == some '/') with _ | _
    · have hval : base_str_cleaned mb = trimStartDotSlash mb ++ "/" := by
        simp only [base_str_cleaned, ht, hsl, Bool.false_eq_true, if_false]
      rw [hval]
      have : ((trimStartDotSlash mb) ++ "/").data = (trimStartDotSlash mb).data ++ ['/'] := rfl
      rw [this]
      exact List.getLast?_concat _
    · have hval : base_str_cleaned mb = trimStartDotSlash mb := by
        simp only [base_str_cleaned, ht, hsl, Bool.false_eq_true, if_false, if_true]
      rw [hval]
      exact eq_of_beq hsl
  · exfalso
    have hval : base_str_cleaned mb = "" := by
      simp only [base_str_cleaned, ht, if_true]
    rw [hval] at h
    simp at h

theorem not_prefixOf_starstar {l : List Char} (h : l.getLast? = some '/') :
    l.isPrefixOf ['*', '*'] = false := by
  rcases hb : l.isPrefixOf ['*', '*'] with _ | _
  · rfl
  · exfalso
    have hp : l <+: ['*', '*'] := List.isPrefixOf_iff_prefix.mp hb
    have hm : '/' ∈ l := List.mem_of_mem_getLast? h
    have : ('/' : Char) ∈ ['*', '*'] := hp.subset hm
    simp at this

theorem cleanRelative_starstar (mb : String) : cleanRelative mb "**" = "**" := by
  unfold cleanRelative
  rcases hb : (base_str_cleaned mb == "") with _ | _
  · have hsl := base_str_cleaned_ends_slash hb
    have hpre : (base_str_cleaned mb).data.isPrefixOf (trimStartDotSlash "**").data = false := by
      have heq : (trimStartDotSlash "**").data = ['*', '*'] := by decide
      rw [heq]
      exact not_prefixOf_starstar hsl
    simp only [hpre, Bool.not_false, Bool.true_and, Bool.false_eq_true, if_false]
    decide
  · simp only [Bool.not_true, Bool.false_and, Bool.false_eq_true, if_false]
    decide

/-- C10: with `include_globs = None`, the file iterator behaves as if the
single include pattern `"**"` had been supplied: one glob group rooted at
the caller's directory with pattern `"**"` and an empty prefix set (no
pruning), and — when no explicit depth option is given — a traversal depth
of 100. -/
theorem C10_none_includes_catch_all (main_base : String) :
    processIncludeGlobsFile none = (["**"], []) ∧
    process_globs main_base ["**"] =
      [{ base := main_base, patterns := ["**"], prefixes := [] }] ∧
    get_depth ["**"] none = TOP_MAX_DEPTH ∧ TOP_MAX_DEPTH = 100 := by
  refine ⟨rfl, ?_, by decide, rfl⟩
  have habs : spath_is_absolute "**" = false := by decide
  have hclean := cleanRelative_starstar main_base
  have haccum : accumGlobs main_base [] [] ["**"] = ([], ["**"]) := by
    simp [accumGlobs, habs, hclean]
  unfold process_globs
  rw [haccum]
  show (sortByCmp _ [(main_base, ["**"])]).foldl _ [] = _
  have hsort : sortByCmp
      (fun (a b : String × List String) => compare a.1.data.length b.1.data.length)
      [(main_base, ["**"])] = [(main_base, ["**"])] := rfl
  rw [hsort]
  show mergeInto [] main_base ["**"] = _
  unfold mergeInto
  have : computePrefixes ["**"] = [] := by decide
  rw [this]

/-! ## Lemmas about eager pattern compilation (C9) -/

theorem get_glob_set_error_mem {compile : String → Option (String → Bool)} :
    ∀ {ps : List String} {e : String}, get_glob_set compile ps = Except.error e →
      compile e = none ∧ e ∈ ps := by
  intro ps
  induction ps with
  | nil =>
    intro e h
    cases h
  | cons g t ih =>
    intro e h
    unfold get_glob_set at h
    rcases hc : compile g with _ | m
    · rw [hc] at h
      rcases Except.error.inj h with rfl
      exact ⟨hc, List.mem_cons_self _ _⟩
    · rw [hc] at h
      rcases hrec : get_glob_set compile t with e' | ms
      · rw [hrec] at h
        rcases Except.error.inj h with rfl
        rcases ih hrec with ⟨h1, h2⟩
        exact ⟨h1, List.mem_cons_of_mem _ h2⟩
      · rw [hrec] at h
        cases h

theorem get_glob_set_ok_no_bad {compile : String → Option (String → Bool)} :
    ∀ {ps : List String} {m : String → Bool}, get_glob_set compile ps = Except.ok m →
      ∀ p ∈ ps, compile p ≠ none := by
  intro ps
  induction ps with
  | nil =>
    intro m _ p hp
    cases hp
  | cons g t ih =>
    intro m h p hp
    unfold get_glob_set at h
    rcases hc : compile g with _ | mg
    · rw [hc] at h
      cases h
    · rw [hc] at h
      rcases hrec : get_glob_set compile t with e' | ms
      · rw [hrec] at h
        cases h
      · rcases List.mem_cons.mp hp with rfl | hp'
        · rw [hc]
          exact fun hcon => Option.noConfusion hcon
        · exact ih hrec p hp'

theorem get_glob_set_error_exists {compile : String → Option (String → Bool)}
    {ps : List String} (hbad : ∃ p ∈ ps, compile p = none) :
    ∃ q, get_glob_set compile ps = Except.error q := by
  induction ps with
  | nil =>
    rcases hbad with ⟨p, hp, _⟩
    cases hp
  | cons g t ih =>
    rcases hc : compile g with _ | m
    · exact ⟨g, by unfold get_glob_set; rw [hc]⟩
    · rcases hbad with ⟨p, hp, hpn⟩
      rcases List.mem_cons.mp hp with rfl | hp'
      · rw [hc] at hpn
        cases hpn
      · rcases ih ⟨p, hp', hpn⟩ with ⟨q, hq⟩
        exact ⟨q, by unfold get_glob_set; rw [hc, hq]⟩

theorem groupsLoop_error_indep {compile : String → Option (String → Bool)} :
    ∀ {groups : List GlobGroup},
      (∃ g ∈ groups, ∃ p ∈ g.patterns, compile p = none) →
      ∃ q, compile q = none ∧ (∃ g ∈ groups, q ∈ g.patterns) ∧
        ∀ walkFn main_base useRel excl max_depth,
          groupsLoop compile walkFn main_base useRel excl max_depth groups =
            Except.error q := by
  intro groups
  induction groups with
  | nil =>
    rintro ⟨g, hg, _⟩
    cases hg
  | cons g rest ih =>
    intro hbad
    rcases hgs : get_glob_set compile g.patterns with e | gs
    · rcases get_glob_set_error_mem hgs with ⟨h1, h2⟩
      refine ⟨e, h1, ⟨g, List.mem_cons_self _ _, h2⟩, ?_⟩
      intro walkFn main_base useRel excl max_depth
      unfold groupsLoop
      rw [hgs]
    · have hgood := get_glob_set_ok_no_bad hgs
      have hbadrest : ∃ g' ∈ rest, ∃ p ∈ g'.patterns, compile p = none := by
        rcases hbad with ⟨g', hg', p, hp, hpn⟩
        rcases List.mem_cons.mp hg' with rfl | hg''
        · exact absurd hpn (hgood p hp)
        · exact ⟨g', hg'', p, hp, hpn⟩
      rcases ih hbadrest with ⟨q, hq1, ⟨g', hg', hq2⟩, hrun⟩
      refine ⟨q, hq1, ⟨g', List.mem_cons_of_mem _ hg', hq2⟩, ?_⟩
      intro walkFn main_base useRel excl max_depth
      unfold groupsLoop
      rw [hgs, hrun walkFn main_base useRel excl max_depth]

/-- C9: a syntactically invalid glob pattern (one the external compiler
rejects) among the compiled patterns — the chosen exclude set or any glob
group's patterns — makes `GlobsFileIter::new` return a pattern-compile
error carrying an offending pattern string, and the result is identical
for every directory-walk primitive: no filesystem traversal is observable
before the error is returned. -/
theorem C9_pattern_compile_error_eager
    (compile : String → Option (String → Bool)) (dir : String)
    (include_globs : Option (List String)) (list_options : Option ListOptions)
    (hbad : ∃ p, compile p = none ∧
      (p ∈ (globsFileIterExcludeChoice include_globs list_options).getD [] ∨
        ∃ g ∈ process_globs (spath_new dir) (processIncludeGlobsFile include_globs).1,
          p ∈ g.patterns)) :
    ∃ q, compile q = none ∧
      (q ∈ (globsFileIterExcludeChoice include_globs list_options).getD [] ∨
        ∃ g ∈ process_globs (spath_new dir) (processIncludeGlobsFile include_globs).1,
          q ∈ g.patterns) ∧
      ∀ walkFn,
        globsFileIterNew compile walkFn dir include_globs list_options =
          Except.error q := by
  rcases hchoice : globsFileIterExcludeChoice include_globs list_options with _ | ps
  · exact absurd hchoice (by
      unfold globsFileIterExcludeChoice
      rcases (applyNegatedExcludes list_options
          (processIncludeGlobsFile include_globs).2).bind (fun o => o.exclude_globs) with _ | l
      · exact fun h => Option.noConfusion h
      · exact fun h => Option.noConfusion h)
  · by_cases hex : ∃ p ∈ ps, compile p = none
    · rcases get_glob_set_error_exists hex with ⟨q, hq⟩
      rcases get_glob_set_error_mem hq with ⟨hq1, hq2⟩
      refine ⟨q, hq1, Or.inl hq2, ?_⟩
      intro walkFn
      unfold globsFileIterNew globsFileIterGroupLists
      rw [hchoice]
      simp only [hq, Except.map]
    · have hbadg : ∃ g ∈ process_globs (spath_new dir)
          (processIncludeGlobsFile include_globs).1, ∃ p ∈ g.patterns, compile p = none := by
        rcases hbad with ⟨p, hpn, hin⟩
        rcases hin with hin | ⟨g, hg, hpg⟩
        · rw [hchoice] at hin
          exact absurd ⟨p, hin, hpn⟩ hex
        · exact ⟨g, hg, p, hpg, hpn⟩
      rcases hok : get_glob_set compile ps with e | m
      · rcases get_glob_set_error_mem hok with ⟨h1, h2⟩
        exact absurd ⟨e, h2, h1⟩ hex
      · rcases groupsLoop_error_indep hbadg with ⟨q, hq1, ⟨g, hg, hq2⟩, hrun⟩
        refine ⟨q, hq1, Or.inr ⟨g, hg, hq2⟩, ?_⟩
        intro walkFn
        unfold globsFileIterNew globsFileIterGroupLists
        rw [hchoice]
        simp only [hok, Except.map]
        rw [hrun walkFn (spath_new dir) _ _ _]

/-- A concrete glob compiler that rejects exactly the pattern `"["`
(an unclosed character class is invalid for the real compiler). -/
def failingCompile : String → Option (String → Bool) :=
  fun p => if p == "[" then none else some (fun _ => true)

/-- C9 witness: applies `C9_pattern_compile_error_eager` with a concrete
compiler, directory and include list, discharging the hypothesis. -/
theorem C9_pattern_compile_error_eager_witness :
    ∃ q, failingCompile q = none ∧
      (q ∈ (globsFileIterExcludeChoice (some ["["]) none).getD [] ∨
        ∃ g ∈ process_globs (spath_new "b") (processIncludeGlobsFile (some ["["])).1,
          q ∈ g.patterns) ∧
      ∀ walkFn,
        globsFileIterNew failingCompile walkFn "b" (some ["["]) none =
          Except.error q :=
  C9_pattern_compile_error_eager failingCompile "b" (some ["["]) none
    ⟨"[", rfl, Or.inr (by decide)⟩

/-! ## Lemmas about cross-group deduplication (C2) -/

theorem mem_dedupGo {α : Type} [BEq α] [LawfulBEq α] : ∀ (l seen : List α) (x : α),
    x ∈ dedupGo seen l ↔ x ∈ l ∧ x ∉ seen := by
  intro l
  induction l with
  | nil =>
    intro seen x
    simp [dedupGo]
  | cons y ys ih =>
    intro seen x
    unfold dedupGo
    rcases hc : seen.contains y with _ | _
    · simp only [Bool.false_eq_true, if_false, List.mem_cons, ih]
      have hyn : y ∉ seen := by simpa using hc
      constructor
      · rintro (rfl | ⟨hx, hns⟩)
        · exact ⟨Or.inl rfl, hyn⟩
        · exact ⟨Or.inr hx, fun hmem => hns (Or.inr hmem)⟩
      · rintro ⟨h1, hns⟩
        by_cases hxy : x = y
        · exact Or.inl hxy
        · rcases h1 with rfl | hx
          · exact Or.inl rfl
          · refine Or.inr ⟨hx, ?_⟩
            rintro (rfl | hm)
            · exact hxy rfl
            · exact hns hm
    · simp only [if_true]
      rw [ih, List.mem_cons]
      constructor
      · rintro ⟨hx, hns⟩
        exact ⟨Or.inr hx, hns⟩
      · rintro ⟨rfl | hx, hns⟩
        · exact absurd (by simpa using hc) hns
        · exact ⟨hx, hns⟩

theorem dedupGo_nodup {α : Type} [BEq α] [LawfulBEq α] :
    ∀ (l seen : List α), (dedupGo seen l).Nodup := by
  intro l
  induction l with
  | nil =>
    intro seen
    exact List.nodup_nil
  | cons y ys ih =>
    intro seen
    unfold dedupGo
    rcases hc : seen.contains y with _ | _
    · simp only [Bool.false_eq_true, if_false]
      refine List.nodup_cons.mpr ⟨?_, ih (y :: seen)⟩
      intro hmem
      exact ((mem_dedupGo ys (y :: seen) y).mp hmem).2 (List.mem_cons_self _ _)
    · simp only [if_true]
      exact ih seen

theorem indexOf_beq_cons_self {α : Type} [BEq α] [LawfulBEq α] (a : α) (l : List α) :
    (a :: l).indexOf a = 0 := by
  simp [List.indexOf_cons]

theorem indexOf_beq_cons_ne {α : Type} [BEq α] [LawfulBEq α] {x y : α} (l : List α)
    (h : x ≠ y) : (y :: l).indexOf x = l.indexOf x + 1 := by
  rw [List.indexOf_cons]
  rw [beq_eq_false_iff_ne.mpr (Ne.symm h)]
  rfl

theorem dedupGo_pairwise_firstIdx {α : Type} [BEq α] [LawfulBEq α] : ∀ (l seen : List α),
    (dedupGo seen l).Pairwise (fun a b => l.indexOf a < l.indexOf b) := by
  intro l
  induction l with
  | nil =>
    intro seen
    exact List.Pairwise.nil
  | cons y ys ih =>
    intro seen
    unfold dedupGo
    rcases hc : seen.contains y with _ | _
    · simp only [Bool.false_eq_true, if_false]
      refine List.pairwise_cons.mpr ⟨?_, ?_⟩
      · intro b hb
        have hby : b ≠ y := by
          intro hbeq
          exact ((mem_dedupGo ys (y :: seen) b).mp hb).2 (hbeq ▸ List.mem_cons_self _ _)
        rw [indexOf_beq_cons_self, indexOf_beq_cons_ne _ hby]
        exact Nat.succ_pos _
      · refine List.Pairwise.imp_of_mem ?_ (ih (y :: seen))
        intro a b ha hb hab
        have hay : a ≠ y :=
          fun h => ((mem_dedupGo ys (y :: seen) a).mp ha).2 (h ▸ List.mem_cons_self _ _)
        have hby : b ≠ y :=
          fun h => ((mem_dedupGo ys (y :: seen) b).mp hb).2 (h ▸ List.mem_cons_self _ _)
        rw [indexOf_beq_cons_ne _ hay, indexOf_beq_cons_ne _ hby]
        exact Nat.succ_lt_succ hab
    · simp only [if_true]
      refine List.Pairwise.imp_of_mem ?_ (ih seen)
      intro a b ha hb hab
      have hay : a ≠ y := by
        intro h
        have := ((mem_dedupGo ys seen a).mp ha).2
        rw [h] at this
        exact this (by simpa using hc)
      have hby : b ≠ y := by
        intro h
        have := ((mem_dedupGo ys seen b).mp hb).2
        rw [h] at this
        exact this (by simpa using hc)
      rw [indexOf_beq_cons_ne _ hay, indexOf_beq_cons_ne _ hby]
      exact Nat.succ_lt_succ hab

/-- C2: `GlobsFileIter` yields each absolute path at most once across all
glob groups: the deduplication scan keeps exactly the first occurrence of
each path of the chained (grouper-ordered) group outputs — its output has
no duplicates, contains exactly the chained paths, is ordered by first
occurrence, and later duplicates are silently dropped (never an error):
every `Ok` result of the constructor is the deduplicated chain of its
per-group lists. -/
theorem C2_cross_group_dedup :
    (∀ l : List String, (dedupScan l).Nodup) ∧
    (∀ (l : List String) (x : String), x ∈ dedupScan l ↔ x ∈ l) ∧
    (∀ l : List String, (dedupScan l).Pairwise (fun a b => l.indexOf a < l.indexOf b)) ∧
    (∀ compile walkFn (dir : String) include_globs list_options out,
      globsFileIterNew compile walkFn dir include_globs list_options = Except.ok out →
      ∃ gls, globsFileIterGroupLists compile walkFn dir include_globs list_options =
          Except.ok gls ∧
        out = dedupScan gls.flatten) := by
  refine ⟨fun l => dedupGo_nodup l [],
    fun l x => by rw [dedupScan, mem_dedupGo]; simp,
    fun l => dedupGo_pairwise_firstIdx l [], ?_⟩
  intro compile walkFn dir include_globs list_options out hok
  unfold globsFileIterNew at hok
  rcases hg : globsFileIterGroupLists compile walkFn dir include_globs list_options
    with e | gls
  · rw [hg] at hok
    cases hok
  · rw [hg] at hok
    rcases Except.ok.inj hok with rfl
    exact ⟨gls, rfl, rfl⟩

/-- C2 witness: applies `C2_cross_group_dedup` to a concrete constructor
run, discharging the `Ok` hypothesis. -/
theorem C2_cross_group_dedup_witness :
    ∃ gls, globsFileIterGroupLists specCompile
        (fun _ _ _ => [("b/x.rs", false)]) "b" (some ["*.rs"]) none =
        Except.ok gls ∧
      ["b/x.rs"] = dedupScan gls.flatten :=
  C2_cross_group_dedup.2.2.2 specCompile
    (fun _ _ _ => [("b/x.rs", false)]) "b" (some ["*.rs"]) none ["b/x.rs"] rfl

/-! ## Lemmas about the pruned walk (C1) -/

theorem prefix_comparable {α : Type} :
    ∀ {l₃ l₁ l₂ : List α}, l₁ <+: l₃ → l₂ <+: l₃ → l₁ <+: l₂ ∨ l₂ <+: l₁ := by
  intro l₃
  induction l₃ with
  | nil =>
    intro l₁ l₂ h1 h2
    rw [List.prefix_nil.mp h1]
    exact Or.inl List.nil_prefix
  | cons c cs ih =>
    intro l₁ l₂ h1 h2
    cases l₁ with
    | nil => exact Or.inl List.nil_prefix
    | cons a as =>
      cases l₂ with
      | nil => exact Or.inr List.nil_prefix
      | cons b bs =>
        rcases h1 with ⟨t₁, ht₁⟩
        rcases h2 with ⟨t₂, ht₂⟩
        rcases List.cons.inj ht₁ with ⟨rfl, hcs₁⟩
        rcases List.cons.inj ht₂ with ⟨rfl, hcs₂⟩
        rcases ih ⟨t₁, hcs₁⟩ ⟨t₂, hcs₂⟩ with h | h
        · exact Or.inl ((List.prefix_cons_inj _).mpr h)
        · exact Or.inr ((List.prefix_cons_inj _).mpr h)

theorem dirMatches_true_of_related {r' : List String} {prefixes : List (List String)}
    {q : List String} (hq : q ∈ prefixes) (hrel : q <+: r' ∨ r' <+: q) :
    dirMatchesPrefixesC r' prefixes = true := by
  unfold dirMatchesPrefixesC
  split
  · rfl
  · split
    · rfl
    · rw [List.any_eq_true]
      refine ⟨q, hq, ?_⟩
      rcases hrel with h | h
      · rw [List.isPrefixOf_iff_prefix.mpr h]
        simp
      · rw [List.isPrefixOf_iff_prefix.mpr h]
        simp

theorem keptFilesC_append (g : GroupRun) (a b : List (List String × Bool)) :
    keptFilesC g (a ++ b) = keptFilesC g a ++ keptFilesC g b := by
  unfold keptFilesC
  rw [List.filter_append, List.map_append, List.filter_append]

theorem keptFilesC_flatten (g : GroupRun) :
    ∀ (ls : List (List (List String × Bool))),
      keptFilesC g ls.flatten = (ls.map (keptFilesC g)).flatten := by
  intro ls
  induction ls with
  | nil => rfl
  | cons x xs ih =>
    rw [List.flatten_cons, keptFilesC_append, List.map_cons, List.flatten_cons, ih]

theorem keptFilesC_cons_dir (g : GroupRun) (p : List String)
    (xs : List (List String × Bool)) :
    keptFilesC g ((p, true) :: xs) = keptFilesC g xs := by
  unfold keptFilesC
  simp

theorem walkSub_path_shape (pred : List String → Bool → Bool) :
    ∀ (d : Nat) (rel : List String) (t : FsTree),
      ∀ e ∈ walkSub pred d rel t, ∃ n rest, e.1 = rel ++ n :: rest := by
  intro d
  induction d with
  | zero =>
    intro rel t e he
    cases t with
    | file n =>
      unfold walkSub at he
      split at he
      · rcases List.mem_singleton.mp he with rfl
        exact ⟨n, [], rfl⟩
      · cases he
    | dir n cs =>
      unfold walkSub at he
      split at he
      · rcases List.mem_cons.mp he with rfl | he'
        · exact ⟨n, [], rfl⟩
        · cases he'
      · cases he
  | succ d' ih =>
    intro rel t e he
    cases t with
    | file n =>
      unfold walkSub at he
      split at he
      · rcases List.mem_singleton.mp he with rfl
        exact ⟨n, [], rfl⟩
      · cases he
    | dir n cs =>
      unfold walkSub at he
      split at he
      · rcases List.mem_cons.mp he with rfl | he'
        · exact ⟨n, [], rfl⟩
        · rcases List.mem_flatten.mp he' with ⟨l, hl, hel⟩
          rcases List.mem_map.mp hl with ⟨c, hc, rfl⟩
          rcases ih (rel ++ [n]) c e hel with ⟨m, rest, hshape⟩
          refine ⟨n, m :: rest, ?_⟩
          rw [hshape, List.append_assoc]
          rfl
      · cases he

/-- Below a directory the prefix extractor proved unrelated to every
literal prefix, the brute-force walk yields no file passing the include
filter: pruning it is lossless. -/
theorem keptFilesC_nil_of_pruned (g : GroupRun)
    (hs : ∀ r, g.matcher r = true →
      g.prefixes = [] ∨ ∃ q ∈ g.prefixes, q.isPrefixOf r = true)
    (hpe : g.prefixes.isEmpty = false)
    {r' : List String}
    (hdm : dirMatchesPrefixesC r' g.prefixes = false)
    (pred : List String → Bool → Bool) (d : Nat) (cs : List FsTree) :
    keptFilesC g ((cs.map (walkSub pred d r')).flatten) = [] := by
  rw [List.eq_nil_iff_forall_not_mem]
  intro x hx
  unfold keptFilesC at hx
  rcases List.mem_filter.mp hx with ⟨hx1, hp⟩
  rcases List.mem_map.mp hx1 with ⟨e, he, rfl⟩
  rcases List.mem_filter.mp he with ⟨hew, _⟩
  rcases List.mem_flatten.mp hew with ⟨l, hl, hel⟩
  rcases List.mem_map.mp hl with ⟨c, hc, rfl⟩
  rcases walkSub_path_shape pred d r' c e hel with ⟨m, rest, hshape⟩
  have hr'pre : r' <+: e.1 := by
    rw [hshape]
    exact ⟨m :: rest, rfl⟩
  have hmatch : g.matcher e.1 = true := by
    simp only [Bool.and_eq_true] at hp
    exact hp.2
  rcases hs e.1 hmatch with hnil | ⟨q, hq, hqpre⟩
  · rw [hnil] at hpe
    cases hpe
  · have hqp : q <+: e.1 := List.isPrefixOf_iff_prefix.mp hqpre
    have hcomp := prefix_comparable hqp hr'pre
    rw [dirMatches_true_of_related hq hcomp] at hdm
    cases hdm

/-- The heart of C1: per subtree, the pruned walk and the brute-force walk
agree on the files that pass the include/exclude filters. -/
theorem walkSub_kept_eq (g : GroupRun)
    (hs : ∀ r, g.matcher r = true →
      g.prefixes = [] ∨ ∃ q ∈ g.prefixes, q.isPrefixOf r = true) :
    ∀ (d : Nat) (rel : List String) (t : FsTree),
      keptFilesC g (walkSub (groupPredC true g) d rel t) =
        keptFilesC g (walkSub (groupPredC false g) d rel t) := by
  intro d
  induction d with
  | zero =>
    intro rel t
    cases t with
    | file n => simp [walkSub, groupPredC]
    | dir n cs =>
      rcases hP : groupPredC true g (rel ++ [n]) true with _ | _ <;>
        rcases hR : groupPredC false g (rel ++ [n]) true with _ | _ <;>
          simp [walkSub, hP, hR, keptFilesC]
  | succ d' ih =>
    intro rel t
    cases t with
    | file n => simp [walkSub, groupPredC]
    | dir n cs =>
      rcases hD : g.exclD (rel ++ [n]) with _ | _
      · -- directory not excluded: the reference predicate admits it
        have hR : groupPredC false g (rel ++ [n]) true = true := by
          simp [groupPredC, hD]
        rcases hpe : g.prefixes.isEmpty with _ | _
        · -- prefixes present: split on the prefix test
          rcases hdm : dirMatchesPrefixesC (rel ++ [n]) g.prefixes with _ | _
          · -- pruned: the subtree is dropped, and contributes nothing anyway
            have hP : groupPredC true g (rel ++ [n]) true = false := by
              simp [groupPredC, hD, hpe, hdm]
            rw [show walkSub (groupPredC true g) (d' + 1) rel (FsTree.dir n cs) = []
              from by unfold walkSub; rw [hP]; rfl]
            rw [show walkSub (groupPredC false g) (d' + 1) rel (FsTree.dir n cs) =
                (rel ++ [n], true) ::
                  (cs.map (walkSub (groupPredC false g) d' (rel ++ [n]))).flatten
              from by unfold walkSub; rw [hR]; rfl]
            rw [keptFilesC_cons_dir,
              keptFilesC_nil_of_pruned g hs hpe hdm (groupPredC false g) d' cs]
            rfl
          · -- prefix test passes: both walks descend; children agree by IH
            have hP : groupPredC true g (rel ++ [n]) true = true := by
              simp [groupPredC, hD, hdm]
            rw [show walkSub (groupPredC true g) (d' + 1) rel (FsTree.dir n cs) =
                (rel ++ [n], true) ::
                  (cs.map (walkSub (groupPredC true g) d' (rel ++ [n]))).flatten
              from by unfold walkSub; rw [hP]; rfl,
              show walkSub (groupPredC false g) (d' + 1) rel (FsTree.dir n cs) =
                (rel ++ [n], true) ::
                  (cs.map (walkSub (groupPredC false g) d' (rel ++ [n]))).flatten
              from by unfold walkSub; rw [hR]; rfl,
              keptFilesC_cons_dir, keptFilesC_cons_dir,
              keptFilesC_flatten, keptFilesC_flatten,
              List.map_map, List.map_map]
            congr 1
            exact List.map_congr_left (fun c _ => ih (rel ++ [n]) c)
        · -- empty prefix set: pruning disabled, both predicates agree
          have hP : groupPredC true g (rel ++ [n]) true = true := by
            simp [groupPredC, hD, hpe]
          rw [show walkSub (groupPredC true g) (d' + 1) rel (FsTree.dir n cs) =
              (rel ++ [n], true) ::
                (cs.map (walkSub (groupPredC true g) d' (rel ++ [n]))).flatten
            from by unfold walkSub; rw [hP]; rfl,
            show walkSub (groupPredC false g) (d' + 1) rel (FsTree.dir n cs) =
              (rel ++ [n], true) ::
                (cs.map (walkSub (groupPredC false g) d' (rel ++ [n]))).flatten
            from by unfold walkSub; rw [hR]; rfl,
            keptFilesC_cons_dir, keptFilesC_cons_dir,
            keptFilesC_flatten, keptFilesC_flatten,
            List.map_map, List.map_map]
          congr 1
          exact List.map_congr_left (fun c _ => ih (rel ++ [n]) c)
      · -- directory excluded: both walks drop it
        have hP : groupPredC true g (rel ++ [n]) true = false := by
          simp [groupPredC, hD]
        have hR : groupPredC false g (rel ++ [n]) true = false := by
          simp [groupPredC, hD]
        rw [show walkSub (groupPredC true g) (d' + 1) rel (FsTree.dir n cs) = []
            from by unfold walkSub; rw [hP]; rfl,
          show walkSub (groupPredC false g) (d' + 1) rel (FsTree.dir n cs) = []
            from by unfold walkSub; rw [hR]; rfl]

/-- Per group: the pruned file list equals the brute-force file list. -/
theorem groupFilesC_eq (g : GroupRun)
    (hs : ∀ r, g.matcher r = true →
      g.prefixes = [] ∨ ∃ q ∈ g.prefixes, q.isPrefixOf r = true) :
    groupFilesC true g = groupFilesC false g := by
  unfold groupFilesC walkGroup
  have hroot : groupPredC true g [] true = groupPredC false g [] true := by
    have hdm : dirMatchesPrefixesC [] g.prefixes = true := by
      unfold dirMatchesPrefixesC
      split
      · rfl
      · simp
    simp [groupPredC, hdm]
  rw [hroot]
  rcases hR : groupPredC false g [] true with _ | _
  · rfl
  · cases hd : g.depth with
    | zero => rfl
    | succ d' =>
      show keptFilesC g
          (([], true) :: (g.children.map (walkSub (groupPredC true g) d' [])).flatten) =
        keptFilesC g
          (([], true) :: (g.children.map (walkSub (groupPredC false g) d' [])).flatten)
      rw [keptFilesC_cons_dir, keptFilesC_cons_dir,
        keptFilesC_flatten, keptFilesC_flatten, List.map_map, List.map_map]
      congr 1
      exact List.map_congr_left (fun c _ => walkSub_kept_eq g hs d' [] c)

/-- Membership in one group's brute-force file list is exactly: a file
entry of the (exclude-pruned, depth-bounded) walk that the exclude set
does not match and the group's globset matches. -/
theorem mem_groupFilesC (g : GroupRun) (pruned : Bool) (r : List String) :
    r ∈ groupFilesC pruned g ↔
      ((r, false) ∈ walkGroup (groupPredC pruned g) g.depth g.children ∧
        g.exclF r = false ∧ g.matcher r = true) := by
  unfold groupFilesC keptFilesC
  constructor
  · intro hx
    rcases List.mem_filter.mp hx with ⟨hx1, hp⟩
    rcases List.mem_map.mp hx1 with ⟨e, he, rfl⟩
    rcases List.mem_filter.mp he with ⟨hew, hfile⟩
    simp only [Bool.and_eq_true] at hp
    rcases hp with ⟨h1, h2⟩
    have hef : e.2 = false := by
      rcases e2 : e.2 with _ | _
      · rfl
      · rw [e2] at hfile
        cases hfile
    have hpair : e = (e.1, false) := by
      rw [← hef]
    rw [hpair] at hew
    exact ⟨hew, by simpa using h1, h2⟩
  · rintro ⟨hw, hex, hm⟩
    refine List.mem_filter.mpr ⟨?_, by simp [hex, hm]⟩
    refine List.mem_map.mpr ⟨(r, false), ?_, rfl⟩
    exact List.mem_filter.mpr ⟨hw, by simp⟩

/-- C1: for every directory tree, glob groups (bases, patterns' compiled
matchers, exclude matchers, extracted literal prefixes, resolved depths)
and exclude set, provided each group's literal-prefix set is correct for
its compiled matcher (every matching relative path extends one of the
prefixes, or the set is empty — the contract the extractor establishes
against the §6 glob-compiler collaborator), the pruned file iterator
yields exactly the files of the non-pruned brute-force walk that applies
the same include/exclude matching: equal outputs, no duplicates, and a
path is yielded iff some group's brute-force walk reaches it as a file
that the exclude set misses and the group's globset matches — hence every
such file is yielded exactly once. -/
theorem C1_pruned_equals_brute_force (gs : List GroupRun)
    (hsound : ∀ g ∈ gs, ∀ r, g.matcher r = true →
      g.prefixes = [] ∨ ∃ q ∈ g.prefixes, q.isPrefixOf r = true) :
    globsFileIterOutC true gs = globsFileIterOutC false gs ∧
    (globsFileIterOutC true gs).Nodup ∧
    (∀ p, p ∈ globsFileIterOutC true gs ↔
      ∃ g ∈ gs, ∃ r ∈ groupFilesC false g, p = g.base ++ r) ∧
    (∀ g ∈ gs, ∀ r, r ∈ groupFilesC false g ↔
      ((r, false) ∈ walkGroup (groupPredC false g) g.depth g.children ∧
        g.exclF r = false ∧ g.matcher r = true)) := by
  have heq : ∀ g ∈ gs, groupFilesC true g = groupFilesC false g :=
    fun g hg => groupFilesC_eq g (hsound g hg)
  have hflat : gs.map (fun g => (groupFilesC true g).map (fun r => g.base ++ r)) =
      gs.map (fun g => (groupFilesC false g).map (fun r => g.base ++ r)) :=
    List.map_congr_left (fun g hg => by rw [heq g hg])
  refine ⟨?_, ?_, ?_, fun g _ r => mem_groupFilesC g false r⟩
  · unfold globsFileIterOutC
    rw [hflat]
  · unfold globsFileIterOutC dedupScan
    exact dedupGo_nodup _ _
  · intro p
    unfold globsFileIterOutC
    rw [hflat, dedupScan, mem_dedupGo]
    simp only [List.not_mem_nil, not_false_iff, and_true]
    constructor
    · intro hp
      rcases List.mem_flatten.mp hp with ⟨l, hl, hpl⟩
      rcases List.mem_map.mp hl with ⟨g, hg, rfl⟩
      rcases List.mem_map.mp hpl with ⟨r, hr, rfl⟩
      exact ⟨g, hg, r, hr, rfl⟩
    · rintro ⟨g, hg, r, hr, rfl⟩
      exact List.mem_flatten.mpr
        ⟨_, List.mem_map.mpr ⟨g, hg, rfl⟩, List.mem_map.mpr ⟨r, hr, rfl⟩⟩

/-- A concrete group run for the C1 witness: base `r`, two subdirectories,
a matcher accepting exactly the files below `a`, literal prefix set
`[[a]]`. -/
def pruneWitnessGroup : GroupRun :=
  { base := ["r"],
    children := [FsTree.dir "a" [FsTree.file "f.rs"], FsTree.dir "c" [FsTree.file "g.rs"]],
    matcher := fun r => ["a"].isPrefixOf r,
    exclD := fun _ => false,
    exclF := fun _ => false,
    prefixes := [["a"]],
    depth := 5 }

/-- C1 witness: applies `C1_pruned_equals_brute_force` to a concrete tree
and group, discharging the prefix-correctness hypothesis. -/
theorem C1_pruned_equals_brute_force_witness :
    globsFileIterOutC true [pruneWitnessGroup] =
      globsFileIterOutC false [pruneWitnessGroup] ∧
    (globsFileIterOutC true [pruneWitnessGroup]).Nodup ∧
    (∀ p, p ∈ globsFileIterOutC true [pruneWitnessGroup] ↔
      ∃ g ∈ [pruneWitnessGroup], ∃ r ∈ groupFilesC false g, p = g.base ++ r) ∧
    (∀ g ∈ [pruneWitnessGroup], ∀ r, r ∈ groupFilesC false g ↔
      ((r, false) ∈ walkGroup (groupPredC false g) g.depth g.children ∧
        g.exclF r = false ∧ g.matcher r = true)) :=
  C1_pruned_equals_brute_force [pruneWitnessGroup]
    (by
      intro g hg r hm
      rcases List.mem_singleton.mp hg with rfl
      exact Or.inr ⟨["a"], List.mem_singleton.mpr rfl, hm⟩)

theorem foldl_max_init_le (l : List String) (a : Nat) :
    a ≤ l.foldl (fun m g => max m (patternLevel g)) a := by
  induction l generalizing a with
  | nil => exact le_rfl
  | cons x xs ih =>
    simp only [List.foldl_cons]
    exact le_trans (le_max_left _ _) (ih _)

theorem foldl_max_ge_of_mem {l : List String} {g : String} (h : g ∈ l) (a : Nat) :
    patternLevel g ≤ l.foldl (fun m g => max m (patternLevel g)) a := by
  induction l generalizing a with
  | nil => cases h
  | cons x xs ih =>
    rcases List.mem_cons.mp h with rfl | hx
    · simp only [List.foldl_cons]
      exact le_trans (le_max_right _ _) (foldl_max_init_le _ _)
    · exact ih hx _

theorem foldl_max_attained (l : List String) (a : Nat) :
    l.foldl (fun m g => max m (patternLevel g)) a = a ∨
      ∃ g ∈ l, l.foldl (fun m g => max m (patternLevel g)) a = patternLevel g := by
  induction l generalizing a with
  | nil => exact Or.inl rfl
  | cons x xs ih =>
    simp only [List.foldl_cons]
    rcases ih (max a (patternLevel x)) with h | ⟨g, hg, hfold⟩
    · rcases le_total (patternLevel x) a with hle | hle
      · exact Or.inl (h.trans (max_eq_left hle))
      · exact Or.inr ⟨x, List.mem_cons_self _ _, h.trans (max_eq_right hle)⟩
    · exact Or.inr ⟨g, List.mem_cons_of_mem _ hg, hfold⟩

/-- C5: `get_depth` returns the caller-supplied depth unchanged whenever
one is provided; otherwise returns the constant 100 whenever any pattern
contains `"**"`; and on the spec's concrete examples:
`get_depth ["a/b/**/c"] none = 100`, `get_depth ["a/b", "c/d/e/f"] none = 4`,
`get_depth [] none = 1`, and `get_depth patterns (some 7) = 7`. -/
theorem C5_get_depth_rules :
    (∀ patterns d, get_depth patterns (some d) = d) ∧
    (∀ patterns, (∃ g ∈ patterns, containsStr g "**" = true) →
      get_depth patterns none = 100) ∧
    get_depth ["a/b/**/c"] none = 100 ∧
    get_depth ["a/b", "c/d/e/f"] none = 4 ∧
    get_depth [] none = 1 := by
  refine ⟨fun patterns d => rfl, ?_, by decide, by decide, by decide⟩
  intro patterns ⟨g, hg, hstar⟩
  show (if patterns.any (fun g => containsStr g "**") then TOP_MAX_DEPTH
    else max (patterns.foldl (fun m g => max m (patternLevel g)) 0) 1) = 100
  rw [if_pos (List.any_eq_true.mpr ⟨g, hg, hstar⟩)]
  rfl

/-- C5 witness: applies `C5_get_depth_rules` at concrete inputs,
discharging the hypothesis of the `"**"` rule. -/
theorem C5_get_depth_rules_witness :
    get_depth ["x/**"] none = 100 ∧ get_depth ["q"] (some 7) = 7 :=
  ⟨C5_get_depth_rules.2.1 ["x/**"] ⟨"x/**", List.mem_singleton.mpr rfl, by decide⟩,
   C5_get_depth_rules.1 ["q"] 7⟩

/-- C6 counterexample: `"a/b"` has 2 path-separator-delimited segments
(`patternLevel` = separator count + 1 = 2), so the claim demands
`get_depth ["a/b"] none = 2 + 1 = 3`, but the code returns the maximum
segment count itself, 2. -/
theorem C6_counterexample_depth_plus_one :
    patternLevel "a/b" = 2 ∧ get_depth ["a/b"] none = 2 ∧
    ¬ get_depth ["a/b"] none = patternLevel "a/b" + 1 :=
  ⟨by decide, by decide, by decide⟩

/-- C6 amended: with no explicit depth supplied and no pattern containing
`"**"`, `get_depth` returns the maximum, over the patterns, of the number of
path-separator-delimited segments (separator count plus one) — not that
maximum plus one — with a minimum of 1. -/
theorem C6_get_depth_segment_max {patterns : List String}
    (hstar : ∀ g ∈ patterns, containsStr g "**" = false) :
    1 ≤ get_depth patterns none ∧
    (∀ g ∈ patterns, patternLevel g ≤ get_depth patterns none) ∧
    (get_depth patterns none = 1 ∨
      ∃ g ∈ patterns, get_depth patterns none = patternLevel g) := by
  have hany : patterns.any (fun g => containsStr g "**") = false := by
    rw [List.any_eq_false]
    intro g hg
    simp [hstar g hg]
  unfold get_depth
  rw [if_neg (by simp [hany])]
  refine ⟨le_max_right _ _,
    fun g hg => le_trans (foldl_max_ge_of_mem hg 0) (le_max_left _ _), ?_⟩
  rcases foldl_max_attained patterns 0 with h0 | ⟨g, hg, hfold⟩
  · rw [h0]
    exact Or.inl rfl
  · rcases le_total (patterns.foldl (fun m g => max m (patternLevel g)) 0) 1 with hle | hle
    · exact Or.inl (max_eq_right hle)
    · rw [max_eq_left hle]
      exact Or.inr ⟨g, hg, hfold⟩

/-- C6 amended witness: applies `C6_get_depth_segment_max` at a concrete
pattern list. -/
theorem C6_get_depth_segment_max_witness :
    1 ≤ get_depth ["a/b", "c/d/e/f"] none ∧
    (∀ g ∈ ["a/b", "c/d/e/f"], patternLevel g ≤ get_depth ["a/b", "c/d/e/f"] none) ∧
    (get_depth ["a/b", "c/d/e/f"] none = 1 ∨
      ∃ g ∈ ["a/b", "c/d/e/f"], get_depth ["a/b", "c/d/e/f"] none = patternLevel g) :=
  C6_get_depth_segment_max (by decide)

end SimpleFs
